import Mathlib

/-!
# gqlgen: test client subscription transport and directive test handlers

A shallow embedding of

* `client/websocket.go`: the `operationMessage` envelope, `errorSubscription`,
  `Client.WebsocketWithPayload` and the `Next` / `Close` closures it returns;
* `codegen/testserver/directive_test.go`: the directive handlers installed in
  `DirectiveRoot` by `TestDirectives` and the `DirectiveField` resolver.

Go library behaviour the code relies on (`fmt.Errorf` format processing,
`context.WithValue`, `encoding/json`) is modelled next to the code that uses it.
Text is modelled as `String` / `List Char`, that is as valid UTF-8.  Loops of
the library code run on fuel; the last sections show that the fuel handed to
them is never used up.
-/

namespace Gqlgen

/-! ## `fmt`: formatting with an empty operand list

`fmt.Errorf(s)` with no operands still interprets `s` as a format string.  The
definitions below follow `(*pp).doPrintf` of `fmt/print.go` for `len(a) = 0`.
-/

/-- Length in bytes of the UTF-8 encoding, Go's `len` on a string. -/
def byteLen (s : List Char) : Nat :=
  (s.map Char.utf8Size).sum

/-- The `tooLarge` guard of `fmt/print.go`: the constant is `1e6`. -/
def tooLarge (x : Nat) : Bool :=
  decide (x > 1000000)

/-- Loop of `parsenum`: accumulated number, whether a digit was seen, and the
unread text.  On overflow Go returns `(0, false, end)`, that is nothing is left
unread. -/
def parsenumLoop : List Char → Nat → Bool → Nat × Bool × List Char
  | [], num, isnum => (num, isnum, [])
  | c :: cs, num, isnum =>
    if '0' ≤ c ∧ c ≤ '9' then
      if tooLarge num then (0, false, [])
      else parsenumLoop cs (num * 10 + (c.toNat - '0'.toNat)) true
    else (num, isnum, c :: cs)

/-- The `parsenum` function of `fmt/print.go` applied to the text from the start
index to the end index. -/
def parsenum (s : List Char) : Nat × Bool × List Char :=
  parsenumLoop s 0 false

/-- The `parseArgNumber` function of `fmt/print.go`; the argument starts with the
opening bracket.  Returns `(index, wid, ok)`. -/
def parseArgNumber (format : List Char) : Int × Nat × Bool :=
  if byteLen format < 3 then (0, 1, false)
  else
    let body := format.drop 1
    let inner := body.takeWhile (fun c => c ≠ ']')
    match body.dropWhile (fun c => c ≠ ']') with
    | [] => (0, 1, false)
    | _ :: _ =>
      let w := inner.length + 2
      match parsenum inner with
      | (width, ok, rest) =>
        if !ok || !rest.isEmpty then (0, w, false)
        else ((width : Int) - 1, w, true)

/-- The `argNumber` method for an empty operand list: no index is ever in
range, so an explicit index always clears `goodArgNum`.  Returns the unread
text, `found` and the new `goodArgNum`. -/
def argNumber (format : List Char) (goodArgNum : Bool) : List Char × Bool × Bool :=
  match format with
  | '[' :: _ =>
    match parseArgNumber format with
    | (_, wid, ok) => (format.drop wid, ok, false)
  | _ => (format, false, goodArgNum)

/-- The flag loop of `doPrintf`; with no operand left the fast path for simple
verbs is never taken. -/
def skipFlags : List Char → List Char
  | [] => []
  | c :: cs =>
    if c = '#' ∨ c = '0' ∨ c = '+' ∨ c = '-' ∨ c = ' ' then skipFlags cs
    else c :: cs

/-- Width part of one directive: text written, unread text, `afterIndex`,
`goodArgNum`. -/
def parseWidth (s : List Char) (afterIndex goodArgNum : Bool) :
    List Char × List Char × Bool × Bool :=
  match s with
  | '*' :: rest => ("%!(BADWIDTH)".data, rest, false, goodArgNum)
  | _ =>
    match parsenum s with
    | (_, widPresent, rest) =>
      ([], rest, afterIndex, if afterIndex && widPresent then false else goodArgNum)

/-- Precision part of one directive: text written, unread text, `afterIndex`,
`goodArgNum`.  The test is `i+1 < end && format[i] == '.'`: a dot is the start
of a precision only when a character follows it; a dot that ends the format is
left to be read as the verb. -/
def parsePrecision (s : List Char) (afterIndex goodArgNum : Bool) :
    List Char × List Char × Bool × Bool :=
  match s with
  | d :: c :: rest =>
    if d = '.' then
      match argNumber (c :: rest) (if afterIndex then false else goodArgNum) with
      | (s2, afterIndex2, good2) =>
        match s2 with
        | x :: s3 =>
          if x = '*' then ("%!(BADPREC)".data, s3, false, good2)
          else ([], (parsenum s2).2.2, afterIndex2, good2)
        | [] => ([], [], afterIndex2, good2)
    else ([], s, afterIndex, goodArgNum)
  | _ => ([], s, afterIndex, goodArgNum)

/-- One directive of `doPrintf`, entered just after the percent sign.  Returns
the text written, the unread text and whether the format loop stops
(`%!(NOVERB)`). -/
def processVerb (s : List Char) : List Char × List Char × Bool :=
  match argNumber (skipFlags s) true with
  | (s2, afterIndex2, good2) =>
    match parseWidth s2 afterIndex2 good2 with
    | (out3, s3, afterIndex3, good3) =>
      match parsePrecision s3 afterIndex3 good3 with
      | (out4, s4, afterIndex4, good4) =>
        match (if afterIndex4 then (s4, afterIndex4, good4) else argNumber s4 good4) with
        | (s5, _, good5) =>
          match s5 with
          | [] => (out3 ++ out4 ++ "%!(NOVERB)".data, [], true)
          | verb :: s6 =>
            if verb = '%' then (out3 ++ out4 ++ ['%'], s6, false)
            else if !good5 then
              (out3 ++ out4 ++ "%!".data ++ [verb] ++ "(BADINDEX)".data, s6, false)
            else
              (out3 ++ out4 ++ "%!".data ++ [verb] ++ "(MISSING)".data, s6, false)

/-- The format loop of `doPrintf` for an empty operand list.  Every round
consumes at least the percent sign, so `fuel` beyond the length of the format is
never used up. -/
def doPrintf : Nat → List Char → List Char
  | 0, _ => []
  | fuel + 1, format =>
    let lit := format.takeWhile (fun c => c ≠ '%')
    match format.dropWhile (fun c => c ≠ '%') with
    | [] => lit
    | _ :: afterPercent =>
      match processVerb afterPercent with
      | (out, rest, stop) =>
        if stop then lit ++ out else lit ++ out ++ doPrintf fuel rest

/-- The text of `fmt.Sprintf(format)` and of `fmt.Errorf(format).Error()` when no
operand is passed. -/
def Sprintf0 (format : String) : String :=
  String.mk (doPrintf (format.data.length + 1) format.data)

/-! ## Go values, errors and contexts -/

/-- The envelope `operationMessage` of `client/websocket.go`.  `Payload` is the
`json.RawMessage` as text; a nil and an empty slice are not told apart, as no
operation below distinguishes them.  The Go field `Type` is named `Typ` here,
`Type` being reserved. -/
structure operationMessage where
  Payload : String
  ID : String
  Typ : String
  deriving DecidableEq, Repr

def connectionInitMsg : String := "connection_init"
def startMsg : String := "start"
def connectionAckMsg : String := "connection_ack"
def connectionKaMsg : String := "ka"
def dataMsg : String := "data"
def errorMsg : String := "error"

/-- A `*gqlerror.Error` as unpacked from the `errors` entry of a response. -/
structure GqlError where
  Message : String
  Path : List String
  deriving DecidableEq, Repr

/-- One entry of the error `unpack` returns: a struct field whose map entry
cannot be converted to the type of the field, the keys of the map that no field
took (`ErrorUnused`), or data that is not a map where a struct is decoded. -/
inductive UnpackFault where
  | unconvertible (field : String)
  | invalidKeys (keys : List String)
  | notAMap
  deriving DecidableEq, Repr

/-- Go `error` values.  `text s` is an error whose `Error()` is `s`.  The other
constructors are `fmt.Errorf` calls whose operand is rendered by `%#v`, `%s` of
an error slice or `%T`, and the error of a failed `unpack`, which lists its
entries; the rendering is not needed and kept symbolic. -/
inductive GoError where
  | text (s : String)
  | expectedAckGot (m : operationMessage)
  | expectedDataGot (m : operationMessage)
  | errorsList (errs : List (Option GqlError))
  | unpackFailed (faults : List UnpackFault)
  deriving DecidableEq, Repr

/-- The text of `fmt.Errorf(format)` called without operands. -/
def Errorf0 (format : String) : GoError :=
  GoError.text (Sprintf0 format)

/-- Dynamic values (`interface{}`) seen by the directive handlers: the untyped
nil, `string`, `int`, `int64`, `*int` and `*string` (a pointer is its pointee,
`none` the nil pointer) and values of any other dynamic type, named by `%T`.
Integers are only compared, never computed with, so `Int` stands for them. -/
inductive Any where
  | nil
  | string (s : String)
  | int (i : Int)
  | int64 (i : Int)
  | intPtr (p : Option Int)
  | stringPtr (p : Option String)
  | other (typeName : String)
  deriving DecidableEq, Repr

/-- The text `%T` prints for a dynamic value. -/
def Any.typeName : Any → String
  | .nil => "<nil>"
  | .string _ => "string"
  | .int _ => "int"
  | .int64 _ => "int64"
  | .intPtr _ => "*int"
  | .stringPtr _ => "*string"
  | .other t => t

/-- A `context.Context` built by `context.WithValue` over a root context. -/
inductive Context where
  | background
  | withValue (parent : Context) (key : String) (val : Any)
  deriving DecidableEq, Repr

/-- The method `ctx.Value(key)`: the innermost binding of the key, nil if there
is none. -/
def Context.Value : Context → String → Any
  | .background, _ => Any.nil
  | .withValue parent key val, k => if k = key then val else Context.Value parent k

/-- The type `graphql.Resolver`, `func(ctx context.Context) (res interface{}, err error)`,
run in a state `σ` that stands for everything else the resolver reads and writes. -/
abbrev Resolver (σ : Type) := Context → σ → (Any × Option GoError) × σ

/-- What a call of a directive handler does: it returns `(res, err)` or panics. -/
inductive Outcome where
  | ret (res : Any) (err : Option GoError)
  | panic (reason : String)
  deriving DecidableEq, Repr

/-! ## `codegen/testserver/directive_test.go` -/

/-- The `DirectiveField` resolver of `TestDirectives`; its result type is `*string`. -/
def DirectiveField (ctx : Context) : Any × Option GoError :=
  match Context.Value ctx "request_id" with
  | .stringPtr s => (.stringPtr s, none)
  | _ => (.stringPtr none, none)

/-- The `Length` handler of `DirectiveRoot`. -/
def Length {σ : Type} (ctx : Context) (_obj : Any) (next : Resolver σ)
    (min : Int) (max : Option Int) (message : Option String) (st : σ) : Outcome × σ :=
  let e : String → GoError := fun msg =>
    match message with
    | none => Errorf0 msg
    | some m => Errorf0 m
  match next ctx st with
  | ((_, some err), st1) => (.ret .nil (some err), st1)
  | ((res, none), st1) =>
    match res with
    | .string s =>
      if (s.utf8ByteSize : Int) < min then (.ret .nil (some (e "too short")), st1)
      else
        match max with
        | some mx =>
          if (s.utf8ByteSize : Int) > mx then (.ret .nil (some (e "too long")), st1)
          else (.ret res none, st1)
        | none => (.ret res none, st1)
    | _ => (.panic "interface conversion: interface is not string", st1)

/-- The bound checks shared by the three cases of `Range`, followed by the
second call `return next(ctx)`. -/
def rangeCheck {σ : Type} (ctx : Context) (next : Resolver σ)
    (min max : Option Int) (res : Int) (st1 : σ) : Outcome × σ :=
  if min.isSome ∧ res < min.getD 0 then (.ret .nil (some (Errorf0 "too small")), st1)
  else if max.isSome ∧ res > max.getD 0 then (.ret .nil (some (Errorf0 "too large")), st1)
  else
    match next ctx st1 with
    | ((res2, err2), st2) => (.ret res2 err2, st2)

/-- The `Range` handler of `DirectiveRoot`.  `int(res)` on an `int64` is the
identity (64-bit `int`).  In the `*int` case the pointer is dereferenced only
when a bound is present. -/
def Range {σ : Type} (ctx : Context) (_obj : Any) (next : Resolver σ)
    (min max : Option Int) (st : σ) : Outcome × σ :=
  match next ctx st with
  | ((_, some err), st1) => (.ret .nil (some err), st1)
  | ((res, none), st1) =>
    match res with
    | .int i => rangeCheck ctx next min max i st1
    | .int64 i => rangeCheck ctx next min max i st1
    | .intPtr (some i) => rangeCheck ctx next min max i st1
    | .intPtr none =>
      if min.isSome ∨ max.isSome then
        (.panic "invalid memory address or nil pointer dereference", st1)
      else
        match next ctx st1 with
        | ((res2, err2), st2) => (.ret res2 err2, st2)
    | _ => (.ret .nil (some (.text ("unsupported type " ++ res.typeName))), st1)

/-- The `Custom` handler. -/
def Custom {σ : Type} (ctx : Context) (_obj : Any) (next : Resolver σ) (st : σ) : Outcome × σ :=
  match next ctx st with
  | ((res, err), st1) => (.ret res err, st1)

/-- The `Logged` handler: `next(context.WithValue(ctx, "request_id", &id))`. -/
def Logged {σ : Type} (ctx : Context) (_obj : Any) (next : Resolver σ) (id : String)
    (st : σ) : Outcome × σ :=
  match next (.withValue ctx "request_id" (.stringPtr (some id))) st with
  | ((res, err), st1) => (.ret res err, st1)

/-- The `ToNull` handler. -/
def ToNull {σ : Type} (_ctx : Context) (_obj : Any) (_next : Resolver σ) (st : σ) : Outcome × σ :=
  (.ret .nil none, st)

/-- The `Directive1` handler. -/
def Directive1 {σ : Type} (ctx : Context) (_obj : Any) (next : Resolver σ) (st : σ) : Outcome × σ :=
  match next ctx st with
  | ((res, err), st1) => (.ret res err, st1)

/-- The `Directive2` handler. -/
def Directive2 {σ : Type} (ctx : Context) (_obj : Any) (next : Resolver σ) (st : σ) : Outcome × σ :=
  match next ctx st with
  | ((res, err), st1) => (.ret res err, st1)

/-- Instrumentation: the same resolver, counting its invocations in the state. -/
def counting {σ : Type} (next : Resolver σ) : Resolver (σ × Nat) :=
  fun ctx st =>
    match next ctx st.1 with
    | (r, st1) => (r, (st1, st.2 + 1))

/-- A resolver that replays a script of results, one per call (state: the calls
still to come); once the script is exhausted it returns `(nil, nil)`. -/
def scripted : Resolver (List (Any × Option GoError)) :=
  fun _ st =>
    match st with
    | [] => ((.nil, none), [])
    | r :: rest => (r, rest)

/-- The `DirectiveField` resolver as a `graphql.Resolver`; it has no state. -/
def directiveFieldResolver : Resolver Unit :=
  fun ctx st => (DirectiveField ctx, st)

/-! ## `client/websocket.go` -/

/-- Values `json.Unmarshal` stores in a `map[string]interface{}`; `null` is the
nil interface.  A number is a `float64`, given exactly as `mant * 2 ^ exp2`.
The members of an object are the entries of a Go map: their keys are distinct. -/
inductive JVal where
  | null
  | bool (b : Bool)
  | number (mant : Int) (exp2 : Int)
  | str (s : String)
  | arr (elems : List JVal)
  | obj (members : List (String × JVal))

/-- The comparison `v != nil` on an `interface{}` read from the decoded map. -/
def JVal.notNil : JVal → Bool
  | .null => false
  | _ => true

/-- Indexing `respDataRaw[key]`: a missing key yields nil. -/
def mapIndex (m : List (String × JVal)) (key : String) : JVal :=
  (m.lookup key).getD JVal.null

/-- The dialed websocket connection `c` together with the test server `srv`.
`incoming` holds the outcome of each `ReadJSON` still to come (a decoded
message or the error of that read) up to the point where the peer closes the
connection, `writeErr n` is the outcome of the `WriteJSON` call made after `n`
earlier ones, `written` logs the messages handed to `WriteJSON`, oldest first,
whether or not the write succeeded. -/
structure Wire where
  incoming : List (Except String operationMessage)
  writeErr : Nat → Option String
  written : List operationMessage
  connClosed : Bool
  srvClosed : Bool

/-- A connection as `Dial` returns it: open, nothing written yet. -/
def Wire.fresh (incoming : List (Except String operationMessage))
    (writeErr : Nat → Option String) : Wire :=
  { incoming := incoming, writeErr := writeErr, written := [],
    connClosed := false, srvClosed := false }

/-- The call `c.ReadJSON(&op)`.  A closed connection fails the read, and so
does an exhausted stream: the peer has closed the connection.  A peer that
keeps the connection open and stays silent, on which the call would not
return, is not among the streams described. -/
def Wire.ReadJSON (w : Wire) : Except String operationMessage × Wire :=
  if w.connClosed then (.error "use of closed network connection", w)
  else
    match w.incoming with
    | [] => (.error "unexpected EOF", w)
    | r :: rest => (r, { w with incoming := rest })

/-- The call `c.WriteJSON(m)`. -/
def Wire.WriteJSON (w : Wire) (m : operationMessage) : Option String × Wire :=
  (w.writeErr w.written.length, { w with written := w.written ++ [m] })

/-- The call `c.Close()`. -/
def Wire.Close (w : Wire) : Option GoError × Wire :=
  (if w.connClosed then some (GoError.text "use of closed network connection") else none,
   { w with connClosed := true })

/-- The call `srv.Close()`. -/
def Wire.srvClose (w : Wire) : Wire :=
  { w with srvClosed := true }

/-- The type `Subscription`: two closures over the connection.  `Next` receives
the current content of `response` and returns the new one. -/
structure Subscription (ρ : Type) where
  Close : Wire → Option GoError × Wire
  Next : ρ → Wire → (Option GoError × ρ) × Wire

/-- The function `errorSubscription`. -/
def errorSubscription {ρ : Type} (err : GoError) : Subscription ρ :=
  { Close := fun w => (none, w)
    Next := fun response w => ((some err, response), w) }

/-- Functions `Next` calls that are not part of `websocket.go`, taken as
parameters: `json.Unmarshal` into the `map[string]interface{}` (a JSON `null`
leaves a nil map, which indexes like the empty one), and the package function
`unpack` of `client.go` at its two uses, into the local `errs` (dropped when
`unpack` fails) and into the caller's `response`, which `unpack` receives as a
pointer and may write to whether or not it fails. -/
structure Helpers (ρ : Type) where
  jsonUnmarshal : String → Except String (List (String × JVal))
  unpackErrors : JVal → Except GoError (List (Option GqlError))
  unpack : JVal → ρ → Option GoError × ρ

/-- The `Next` closure of the subscription `WebsocketWithPayload` returns. -/
def subscriptionNext {ρ : Type} (h : Helpers ρ) (response : ρ) (w : Wire) :
    (Option GoError × ρ) × Wire :=
  match w.ReadJSON with
  | (.error e, w1) => ((some (.text e), response), w1)
  | (.ok op, w1) =>
    if op.Typ ≠ dataMsg then
      if op.Typ = errorMsg then ((some (Errorf0 op.Payload), response), w1)
      else ((some (.expectedDataGot op), response), w1)
    else
      match h.jsonUnmarshal op.Payload with
      | .error e => ((some (.text ("decode: " ++ e)), response), w1)
      | .ok respDataRaw =>
        if (mapIndex respDataRaw "errors").notNil then
          match h.unpackErrors (mapIndex respDataRaw "errors") with
          | .error err => ((some err, response), w1)
          | .ok errs =>
            if errs.length > 0 then ((some (.errorsList errs), response), w1)
            else (h.unpack (mapIndex respDataRaw "data") response, w1)
        else (h.unpack (mapIndex respDataRaw "data") response, w1)

/-- The `Close` closure of the subscription `WebsocketWithPayload` returns. -/
def subscriptionClose (w : Wire) : Option GoError × Wire :=
  Wire.Close (Wire.srvClose w)

/-- What `WebsocketWithPayload` obtains before the handshake: the outcome of
`p.newRequest`, of `ioutil.ReadAll(r.Body)`, of `Dial`, and of
`json.Marshal(initPayload)` (`none` when `initPayload` is nil). -/
structure DialSetup where
  newRequest : Except String Unit
  readBody : Except String String
  dial : Except String Wire
  marshalInit : Option (Except String String)

/-- The method `Client.WebsocketWithPayload`: the subscription returned and the
connection as the call leaves it (`none` if none was dialed). -/
def WebsocketWithPayload {ρ : Type} (h : Helpers ρ) (env : DialSetup) :
    Subscription ρ × Option Wire :=
  match env.newRequest with
  | .error e => (errorSubscription (.text ("request: " ++ e)), none)
  | .ok _ =>
  match env.readBody with
  | .error e => (errorSubscription (.text ("parse body: " ++ e)), none)
  | .ok requestBody =>
  match env.dial with
  | .error e => (errorSubscription (.text ("dial: " ++ e)), none)
  | .ok c =>
  match (match env.marshalInit with
         | none => Except.ok ""
         | some r => r) with
  | .error e => (errorSubscription (.text ("parse payload: " ++ e)), some c)
  | .ok initPayload =>
  match c.WriteJSON { Payload := initPayload, ID := "", Typ := connectionInitMsg } with
  | (some e, c1) => (errorSubscription (.text ("init: " ++ e)), some c1)
  | (none, c1) =>
  match c1.ReadJSON with
  | (.error e, c2) => (errorSubscription (.text ("ack: " ++ e)), some c2)
  | (.ok ack, c2) =>
  if ack.Typ ≠ connectionAckMsg then (errorSubscription (.expectedAckGot ack), some c2)
  else
  match c2.ReadJSON with
  | (.error e, c3) => (errorSubscription (.text ("ack: " ++ e)), some c3)
  | (.ok ka, c3) =>
  if ka.Typ ≠ connectionKaMsg then (errorSubscription (.expectedAckGot ack), some c3)
  else
  match c3.WriteJSON { Payload := requestBody, ID := "1", Typ := startMsg } with
  | (some e, c4) => (errorSubscription (.text ("start: " ++ e)), some c4)
  | (none, c4) => ({ Close := subscriptionClose, Next := subscriptionNext h }, some c4)

/-- Whether a message of type `start` was handed to `WriteJSON`, whatever the
outcome of that write. -/
def startWritten (w : Wire) : Bool :=
  w.written.any (fun m => m.Typ == startMsg)

/-! ### Concrete helpers used to evaluate `Next` -/

/-- The response `struct { A, B int }` of a caller. -/
structure TwoInts where
  A : Int
  B : Int
  deriving DecidableEq, Repr

/-- The conversion `int64(f)` of a `float64` given as `mant * 2 ^ exp2`: the
fraction is dropped; a value outside the range of `int64` converts to the
smallest `int64`, as on amd64. -/
def floatToInt64 (mant exp2 : Int) : Int :=
  let t : Int := if 0 ≤ exp2 then mant * 2 ^ exp2.toNat else Int.tdiv mant (2 ^ (-exp2).toNat)
  if -9223372036854775808 ≤ t ∧ t < 9223372036854775808 then t else -9223372036854775808

/-- The key of the map that the struct field `name` (an upper-case ASCII
letter) takes: the key equal to the name if there is one, else the key equal
to it up to case. -/
def fieldKey (members : List (String × JVal)) (name lower : String) : Option String :=
  if (members.lookup name).isSome then some name
  else if (members.lookup lower).isSome then some lower
  else none

/-- Decoding the entry of one `int` field: the value for the field, if it is
written, and the fault, if one is reported.  A field without entry and a field
whose entry is nil are left alone; a number is converted; any other value is
reported and the field left alone. -/
def unpackIntField (members : List (String × JVal)) (name lower : String) (old : Int) :
    Int × Option UnpackFault :=
  match fieldKey members name lower with
  | none => (old, none)
  | some key =>
    match mapIndex members key with
    | .null => (old, none)
    | .number mant exp2 => (floatToInt64 mant exp2, none)
    | _ => (old, some (.unconvertible name))

/-- An `unpack` into `struct { A, B int }`.  The package function `unpack`
decodes with `mapstructure` (`ErrorUnused`, no weak typing), which for a struct
sets the fields one after the other from the entries of the map, collects what
fails, and then reports, sorted, the keys no field took.  Nil data sets
nothing; data that is not a map is an error. -/
def unpackTwoInts (data : JVal) (response : TwoInts) : Option GoError × TwoInts :=
  match data with
  | .null => (none, response)
  | .obj members =>
    let ra := unpackIntField members "A" "a" response.A
    let rb := unpackIntField members "B" "b" response.B
    let used := (fieldKey members "A" "a").toList ++ (fieldKey members "B" "b").toList
    let unused := (members.map Prod.fst).filter (fun k => !used.contains k)
    let faults := ra.2.toList ++ rb.2.toList ++
      (if unused.isEmpty then []
       else [UnpackFault.invalidKeys (unused.insertionSort (fun a b => ¬ b.data < a.data))])
    (if faults.isEmpty then none else some (.unpackFailed faults), { A := ra.1, B := rb.1 })
  | _ => (some (.unpackFailed [.notAMap]), response)

/-- An `unpack` into `errs` that yields one entry per list element. -/
def unpackErrorList (v : JVal) : Except GoError (List (Option GqlError)) :=
  match v with
  | .null => .ok []
  | .arr elems =>
    .ok (elems.map (fun e =>
      match e with
      | .obj members =>
        match members.lookup "message" with
        | some (.str m) => some { Message := m, Path := [] }
        | _ => some { Message := "", Path := [] }
      | _ => none))
  | _ => .error (.text "source data must be an array or slice")

/-- A stand-in for `json.Unmarshal` that knows one payload and rejects the rest. -/
def decodeSample (payload : String) : Except String (List (String × JVal)) :=
  if payload = "\x7b\"data\":\x7b\"A\":1,\"B\":\"x\"\x7d\x7d" then
    .ok [("data", .obj [("A", .number 1 0), ("B", .str "x")])]
  else .error "unexpected end of JSON input"

/-- Concrete helpers on which `Next` can be run. -/
def sampleHelpers : Helpers TwoInts :=
  { jsonUnmarshal := decodeSample, unpackErrors := unpackErrorList, unpack := unpackTwoInts }

/-- The `connection_init` message `WebsocketWithPayload` writes first. -/
def initMessage (initPayload : Option String) : operationMessage :=
  { Payload := initPayload.getD "", ID := "", Typ := connectionInitMsg }

/-- The setup of a call whose request, body, dial and init marshalling succeed:
`body` is the request body, `initPayload` the marshalled init payload (`none`
when `initPayload` is nil) and `w` the dialed connection. -/
def dialed (body : String) (initPayload : Option String) (w : Wire) : DialSetup :=
  { newRequest := .ok (), readBody := .ok body, dial := .ok w,
    marshalInit := initPayload.map Except.ok }

/-! ## `encoding/json` on `operationMessage`

`json.Marshal` of a struct writes the fields in declaration order, leaves out
empty `omitempty` fields, quotes strings with HTML escaping and passes a
`json.RawMessage` through `compact`, which checks that it is valid JSON, drops
the white space outside strings and escapes `<`, `>`, `&`, U+2028 and U+2029.
`json.Unmarshal` checks that the whole text is valid JSON and then fills the
struct member by member.  The scanner is modelled by recursive descent.
-/

/-- The `isSpace` test of the scanner. -/
def isSpace (c : Char) : Bool :=
  c = ' ' || c = '\t' || c = '\r' || c = '\n'

/-- Skipping white space between tokens. -/
def skipSpace (s : List Char) : List Char :=
  s.dropWhile isSpace

/-- A decimal digit. -/
def isDecimal (c : Char) : Bool :=
  decide ('0' ≤ c) && decide (c ≤ '9')

/-- The value of a hexadecimal digit, either case. -/
def hexVal (c : Char) : Option Nat :=
  if '0' ≤ c ∧ c ≤ '9' then some (c.toNat - 48)
  else if 'a' ≤ c ∧ c ≤ 'f' then some (c.toNat - 87)
  else if 'A' ≤ c ∧ c ≤ 'F' then some (c.toNat - 55)
  else none

/-- The digit `hex[n]` of the table `"0123456789abcdef"`. -/
def hexDigit (n : Nat) : Char :=
  if n < 10 then Char.ofNat (48 + n) else Char.ofNat (87 + n)

/-- The escape `\u00XY` that the encoder and `compact` write for a byte. -/
def escapeU00 (c : Char) : List Char :=
  ['\\', 'u', '0', '0', hexDigit (c.toNat / 16), hexDigit (c.toNat % 16)]

/-- The escape `\u202X` written for U+2028 and U+2029. -/
def escapeU202 (c : Char) : List Char :=
  ['\\', 'u', '2', '0', '2', hexDigit (c.toNat % 16)]

/-- What the scanner meets inside a string literal. -/
inductive StrStep where
  | close (rest : List Char)
  | unit (out : List Char) (rest : List Char)
  | bad

/-- One step inside a string literal: the closing quote, or one character or
escape sequence together with what `compact` writes for it, or a syntax error
(control character, bad escape, end of input). -/
def stringStep : List Char → StrStep
  | [] => .bad
  | c :: t =>
    if c = '"' then .close t
    else if c = '\\' then
      match t with
      | [] => .bad
      | e :: t2 =>
        if e = 'u' then
          match t2 with
          | a :: b :: c2 :: d :: t3 =>
            if (hexVal a).isSome && (hexVal b).isSome && (hexVal c2).isSome && (hexVal d).isSome
            then .unit ['\\', 'u', a, b, c2, d] t3
            else .bad
          | _ => .bad
        else if e = '"' ∨ e = '\\' ∨ e = '/' ∨ e = 'b' ∨ e = 'f' ∨ e = 'n' ∨ e = 'r' ∨ e = 't'
        then .unit ['\\', e] t2
        else .bad
    else if c.toNat < 32 then .bad
    else if c = '<' ∨ c = '>' ∨ c = '&' then .unit (escapeU00 c) t
    else if c.toNat = 8232 ∨ c.toNat = 8233 then .unit (escapeU202 c) t
    else .unit [c] t

/-- Scanning a string literal from just after the opening quote: the compacted
text up to and including the closing quote, and the unread text. -/
def scanStringLoop : Nat → List Char → Option (List Char × List Char)
  | 0, _ => none
  | fuel + 1, s =>
    match stringStep s with
    | .bad => none
    | .close rest => some (['"'], rest)
    | .unit out rest =>
      match scanStringLoop fuel rest with
      | none => none
      | some (body, rest2) => some (out ++ body, rest2)

/-- String scanning with fuel for every character of the input. -/
def scanString (s : List Char) : Option (List Char × List Char) :=
  scanStringLoop (s.length + 1) s

/-- A run of digits that must not be empty. -/
def scanDigits (s : List Char) : Option (List Char × List Char) :=
  match s.takeWhile isDecimal with
  | [] => none
  | d :: ds => some (d :: ds, s.dropWhile isDecimal)

/-- The optional exponent of a number. -/
def scanExponent (s : List Char) : Option (List Char × List Char) :=
  match s with
  | e :: t =>
    if e = 'e' ∨ e = 'E' then
      match t with
      | sg :: t2 =>
        if sg = '+' ∨ sg = '-' then
          (scanDigits t2).map (fun r => (e :: sg :: r.1, r.2))
        else (scanDigits t).map (fun r => (e :: r.1, r.2))
      | [] => none
    else some ([], s)
  | [] => some ([], s)

/-- The optional fraction of a number. -/
def scanFraction (s : List Char) : Option (List Char × List Char) :=
  match s with
  | c :: t =>
    if c = '.' then (scanDigits t).map (fun r => ('.' :: r.1, r.2))
    else some ([], s)
  | [] => some ([], s)

/-- The integer part of a number: `0`, or a non-zero digit and more digits. -/
def scanInt (s : List Char) : Option (List Char × List Char) :=
  match s with
  | c :: t =>
    if c = '0' then some (['0'], t)
    else if isDecimal c then some (c :: t.takeWhile isDecimal, t.dropWhile isDecimal)
    else none
  | [] => none

/-- A number literal: the literal and the unread text. -/
def scanNumber (s : List Char) : Option (List Char × List Char) :=
  let signed : List Char × List Char :=
    match s with
    | c :: t => if c = '-' then (['-'], t) else ([], s)
    | [] => ([], s)
  match scanInt signed.2 with
  | none => none
  | some (i, s2) =>
    match scanFraction s2 with
    | none => none
    | some (f, s3) =>
      match scanExponent s3 with
      | none => none
      | some (e, s4) => some (signed.1 ++ i ++ f ++ e, s4)

/-- Reading a fixed word such as `true`. -/
def scanWord (word s : List Char) : Option (List Char × List Char) :=
  if s.take word.length = word then some (word, s.drop word.length) else none

/-- What the descent is about to read: a value, the elements of an array from
the first one to the closing bracket, or the members of an object from the first
key to the closing brace. -/
inductive ScanMode where
  | value
  | elems
  | members

/-- Recursive descent through JSON text that starts at a token.  Returns the
compacted form of what was read and the unread text, or `none` on a syntax
error. -/
def scanJSON : Nat → ScanMode → List Char → Option (List Char × List Char)
  | 0, _, _ => none
  | fuel + 1, .value, s =>
    match s with
    | [] => none
    | c :: t =>
      if c = '"' then (scanString t).map (fun r => ('"' :: r.1, r.2))
      else if c = '[' then
        match skipSpace t with
        | [] => none
        | c2 :: t2 =>
          if c2 = ']' then some (['[', ']'], t2)
          else (scanJSON fuel .elems (c2 :: t2)).map (fun r => ('[' :: r.1, r.2))
      else if c = '{' then
        match skipSpace t with
        | [] => none
        | c2 :: t2 =>
          if c2 = '}' then some (['{', '}'], t2)
          else (scanJSON fuel .members (c2 :: t2)).map (fun r => ('{' :: r.1, r.2))
      else if c = 't' then scanWord "true".data s
      else if c = 'f' then scanWord "false".data s
      else if c = 'n' then scanWord "null".data s
      else scanNumber s
  | fuel + 1, .elems, s =>
    match scanJSON fuel .value s with
    | none => none
    | some (v, rest) =>
      match skipSpace rest with
      | [] => none
      | c :: t =>
        if c = ',' then
          (scanJSON fuel .elems (skipSpace t)).map (fun r => (v ++ ',' :: r.1, r.2))
        else if c = ']' then some (v ++ [']'], t)
        else none
  | fuel + 1, .members, s =>
    match s with
    | [] => none
    | q :: t =>
      if q = '"' then
        match scanString t with
        | none => none
        | some (k, rest) =>
          match skipSpace rest with
          | [] => none
          | c :: t2 =>
            if c = ':' then
              match scanJSON fuel .value (skipSpace t2) with
              | none => none
              | some (v, rest3) =>
                match skipSpace rest3 with
                | [] => none
                | c3 :: t3 =>
                  if c3 = ',' then
                    (scanJSON fuel .members (skipSpace t3)).map
                      (fun r => ('"' :: k ++ ':' :: v ++ ',' :: r.1, r.2))
                  else if c3 = '}' then some ('"' :: k ++ ':' :: v ++ ['}'], t3)
                  else none
            else none
      else none

/-- Fuel that is enough for the descent through a text of this length. -/
def scanFuel (s : List Char) : Nat :=
  2 * s.length + 2

/-- The function `compact` with `escape = true`: `none` when the text is not
one valid JSON value. -/
def compact (src : List Char) : Option (List Char) :=
  match scanJSON (scanFuel src) .value (skipSpace src) with
  | none => none
  | some (out, rest) => if (skipSpace rest).isEmpty then some out else none

/-- What the string encoder with `escapeHTML = true` writes for one character. -/
def encodeChar (c : Char) : List Char :=
  if c = '"' ∨ c = '\\' then ['\\', c]
  else if c = '\n' then ['\\', 'n']
  else if c = '\r' then ['\\', 'r']
  else if c = '\t' then ['\\', 't']
  else if c.toNat < 32 ∨ c = '<' ∨ c = '>' ∨ c = '&' then escapeU00 c
  else if c.toNat = 8232 ∨ c.toNat = 8233 then escapeU202 c
  else [c]

/-- The body of an encoded string, between the quotes. -/
def encodeBody : List Char → List Char
  | [] => []
  | c :: cs => encodeChar c ++ encodeBody cs

/-- A Go string as a JSON string literal. -/
def encodeString (s : String) : List Char :=
  '"' :: encodeBody s.data ++ ['"']

/-- The payload as `Marshal` writes it: nothing for an empty `RawMessage`
(`omitempty`), else its compacted form; `none` when it is not valid JSON. -/
def marshalPayload (payload : String) : Option (List Char) :=
  if payload.data.isEmpty then some [] else compact payload.data

/-- The members `Marshal` writes after the opening brace: `payload` unless it is
empty, `id` unless it is empty, and `type`, each name quoted by the string
encoder. -/
def marshalFields (p : List Char) (m : operationMessage) : List Char :=
  (if p.isEmpty then [] else encodeString "payload" ++ ':' :: (p ++ [','])) ++
  ((if m.ID.data.isEmpty then [] else encodeString "id" ++ ':' :: (encodeString m.ID ++ [','])) ++
   (encodeString "type" ++ ':' :: (encodeString m.Typ ++ ['}'])))

/-- The call `json.Marshal(m)` for an `operationMessage`. -/
def Marshal (m : operationMessage) : Except String String :=
  match marshalPayload m.Payload with
  | none => .error "json: error calling MarshalJSON for type json.RawMessage"
  | some p => .ok (String.mk ('{' :: marshalFields p m))

/-- Four hexadecimal digits as a number. -/
def getu4 (a b c d : Char) : Option Nat :=
  match hexVal a, hexVal b, hexVal c, hexVal d with
  | some x, some y, some z, some w => some (((x * 16 + y) * 16 + z) * 16 + w)
  | _, _, _, _ => none

/-- One step of `unquote` on the text between the quotes: the character
decoded and the unread text.  A surrogate half that is not followed by its
other half decodes to U+FFFD. -/
def unquoteStep : List Char → Option (Char × List Char)
  | [] => none
  | c :: t =>
    if c = '\\' then
      match t with
      | [] => none
      | e :: t2 =>
        if e = 'u' then
          match t2 with
          | a :: b :: c2 :: d :: t3 =>
            match getu4 a b c2 d with
            | none => none
            | some r =>
              if 0xD800 ≤ r ∧ r < 0xE000 then
                match t3 with
                | b1 :: u1 :: a1 :: b2 :: c3 :: d1 :: t4 =>
                  match getu4 a1 b2 c3 d1 with
                  | some r1 =>
                    if b1 = '\\' ∧ u1 = 'u' ∧ r < 0xDC00 ∧ 0xDC00 ≤ r1 ∧ r1 < 0xE000 then
                      some (Char.ofNat ((r - 0xD800) * 1024 + (r1 - 0xDC00) + 0x10000), t4)
                    else some (Char.ofNat 0xFFFD, t3)
                  | none => some (Char.ofNat 0xFFFD, t3)
                | _ => some (Char.ofNat 0xFFFD, t3)
              else some (Char.ofNat r, t3)
          | _ => none
        else if e = '"' ∨ e = '\\' ∨ e = '/' then some (e, t2)
        else if e = 'b' then some (Char.ofNat 8, t2)
        else if e = 'f' then some (Char.ofNat 12, t2)
        else if e = 'n' then some ('\n', t2)
        else if e = 'r' then some ('\r', t2)
        else if e = 't' then some ('\t', t2)
        else none
    else if c = '"' ∨ c.toNat < 32 then none
    else some (c, t)

/-- The loop of `unquote`. -/
def unquoteLoop : Nat → List Char → Option (List Char)
  | _, [] => some []
  | 0, _ :: _ => none
  | fuel + 1, c :: t =>
    match unquoteStep (c :: t) with
    | none => none
    | some (x, rest) => (unquoteLoop fuel rest).map (fun r => x :: r)

/-- The function `unquote` on the text between the quotes of a literal. -/
def unquote (body : List Char) : Option String :=
  (unquoteLoop body.length body).map String.mk

/-- The text read from `s` when `rest` is what is left of it. -/
def readText (s rest : List Char) : List Char :=
  s.take (s.length - rest.length)

/-- ASCII letters compared without case, as the decoder matches a key against
a field name made of lower-case letters. -/
def foldEq : List Char → List Char → Bool
  | [], [] => true
  | n :: ns, k :: ks => (k = n || k.toNat + 32 = n.toNat) && foldEq ns ks
  | _, _ => false

/-- Storing a JSON string or `null` in a Go `string` field. -/
def decodeStringField (raw : List Char) (old : String) : Except String String :=
  match raw with
  | c :: body =>
    if c = '"' then
      match unquote body.dropLast with
      | some v => .ok v
      | none => .error "json: invalid string literal"
    else if c = 'n' then .ok old
    else .error "json: cannot unmarshal value into Go struct field of type string"
  | [] => .error "unexpected end of JSON input"

/-- Storing the raw text of a member in the field its key selects; a key that
matches no field is skipped. -/
def setField (op : operationMessage) (key : String) (raw : List Char) :
    Except String operationMessage :=
  if foldEq "payload".data key.data then .ok { op with Payload := String.mk raw }
  else if foldEq "id".data key.data then
    (decodeStringField raw op.ID).map (fun v => { op with ID := v })
  else if foldEq "type".data key.data then
    (decodeStringField raw op.Typ).map (fun v => { op with Typ := v })
  else .ok op

/-- The member loop of the decoder, entered at a key of an object already known
to be valid. -/
def decodeMembers : Nat → List Char → operationMessage → Except String operationMessage
  | 0, _, _ => .error "unexpected end of JSON input"
  | fuel + 1, s, op =>
    match s with
    | [] => .error "unexpected end of JSON input"
    | _ :: t =>
      match scanString t with
      | none => .error "invalid character in string literal"
      | some (_, rest) =>
        match unquote (readText t rest).dropLast with
        | none => .error "invalid string literal"
        | some key =>
          match skipSpace rest with
          | [] => .error "unexpected end of JSON input"
          | _ :: t2 =>
            match scanJSON (scanFuel t2) .value (skipSpace t2) with
            | none => .error "invalid character looking for beginning of value"
            | some (_, rest3) =>
              match setField op key (readText (skipSpace t2) rest3) with
              | .error e => .error e
              | .ok op2 =>
                match skipSpace rest3 with
                | [] => .error "unexpected end of JSON input"
                | c3 :: t3 =>
                  if c3 = ',' then decodeMembers fuel (skipSpace t3) op2
                  else .ok op2

/-- The call `json.Unmarshal(data, &op)` on a zero `operationMessage`. -/
def Unmarshal (data : String) : Except String operationMessage :=
  let s := skipSpace data.data
  match scanJSON (scanFuel s) .value s with
  | none => .error "invalid character"
  | some (_, rest) =>
    if !(skipSpace rest).isEmpty then .error "invalid character after top-level value"
    else
      match s with
      | c :: t =>
        if c = '{' then
          match skipSpace t with
          | [] => .error "unexpected end of JSON input"
          | c2 :: t2 =>
            if c2 = '}' then .ok { Payload := "", ID := "", Typ := "" }
            else decodeMembers (scanFuel s) (c2 :: t2) { Payload := "", ID := "", Typ := "" }
        else if c = 'n' then .ok { Payload := "", ID := "", Typ := "" }
        else .error "json: cannot unmarshal value into Go value of type client.operationMessage"
      | [] => .error "unexpected end of JSON input"

/-- The text after a number literal does not continue it. -/
def numEnd (t : List Char) : Prop :=
  ∀ c, t.head? = some c → isDecimal c = false ∧ c ≠ '.' ∧ c ≠ 'e' ∧ c ≠ 'E'

/-- What may follow a value inside well-formed JSON: a comma, a closing bracket
or brace, or the end of the text. -/
def delim (t : List Char) : Prop :=
  ∀ c, t.head? = some c → c = ',' ∨ c = ']' ∨ c = '}'

/-- The first character of a compacted value, element list or member list. -/
def startsToken (mode : ScanMode) (c : List Char) : Prop :=
  ∃ h tl, c = h :: tl ∧ isSpace h = false ∧ h ≠ ']' ∧ h ≠ '}' ∧ (mode = .members → h = '"')

/-- The members after `payload`: `id` unless it is empty, then `type`. -/
def tailFields (m : operationMessage) : List Char :=
  (if m.ID.data.isEmpty then [] else encodeString "id" ++ ':' :: (encodeString m.ID ++ [','])) ++
  (encodeString "type" ++ ':' :: (encodeString m.Typ ++ ['}']))

/-- Fuel that a descent reading `k` characters needs at most. -/
def scanNeed : ScanMode → Nat → Nat
  | .value, k => 2 * k
  | .elems, k => 2 * k + 1
  | .members, k => 2 * k + 1

/-! # Theorems -/

/-! ## Formatting -/

theorem takeWhile_ne_of_not_mem (c : Char) (s : List Char) (h : c ∉ s) :
    s.takeWhile (fun x => x ≠ c) = s ∧ s.dropWhile (fun x => x ≠ c) = [] := by
  induction s with
  | nil => simp
  | cons a t ih =>
    have ha : a ≠ c := fun e => h (by simp [e])
    have ht : c ∉ t := fun e => h (by simp [e])
    simp only [List.takeWhile, List.dropWhile, ne_eq, ha, not_false_eq_true, decide_True,
      (ih ht).1, (ih ht).2, and_self]

/-- A format without a percent sign is printed as it is. -/
theorem Sprintf0_of_no_percent (s : String) (h : '%' ∉ s.data) : Sprintf0 s = s := by
  unfold Sprintf0 doPrintf
  simp only [(takeWhile_ne_of_not_mem '%' s.data h).1, (takeWhile_ne_of_not_mem '%' s.data h).2]

/-- A dot that ends the format is the verb, not the start of a precision. -/
theorem Sprintf0_of_final_dot : Sprintf0 "rate 5%." = "rate 5%!.(MISSING)" := by
  decide

/-! ## Directive handlers -/

/-- What `Length` does on a string result when the supplied message, if any,
has no percent sign: the result is returned unchanged when the byte length is
within the bounds, otherwise the error carries the message, or the default
`too short` / `too long`. -/
theorem Length_of_plain_message {σ : Type} (ctx : Context) (obj : Any) (next : Resolver σ)
    (min : Int) (max : Option Int) (message : Option String) (st : σ) (s : String)
    (hmsg : ∀ m, message = some m → '%' ∉ m.data)
    (hnext : (next ctx st).1 = (.string s, none)) :
    Length ctx obj next min max message st =
      (if (s.utf8ByteSize : Int) < min then
         .ret .nil (some (.text (message.getD "too short")))
       else if ∃ mx, max = some mx ∧ (s.utf8ByteSize : Int) > mx then
         .ret .nil (some (.text (message.getD "too long")))
       else .ret (.string s) none, (next ctx st).2) := by
  have e1 : Sprintf0 "too short" = "too short" := by decide
  have e2 : Sprintf0 "too long" = "too long" := by decide
  unfold Length
  rcases hn : next ctx st with ⟨⟨res, err⟩, st1⟩
  rw [hn] at hnext
  simp only [Prod.mk.injEq] at hnext
  obtain ⟨rfl, rfl⟩ := hnext
  cases message with
  | none =>
    cases max with
    | none => by_cases h1 : (s.utf8ByteSize : Int) < min <;> simp [h1, Errorf0, e1]
    | some mx =>
      by_cases h1 : (s.utf8ByteSize : Int) < min <;>
        by_cases h2 : (s.utf8ByteSize : Int) > mx <;> simp [h1, h2, Errorf0, e1, e2]
  | some m =>
    have hm := Sprintf0_of_no_percent m (hmsg m rfl)
    cases max with
    | none => by_cases h1 : (s.utf8ByteSize : Int) < min <;> simp [h1, Errorf0, hm]
    | some mx =>
      by_cases h1 : (s.utf8ByteSize : Int) < min <;>
        by_cases h2 : (s.utf8ByteSize : Int) > mx <;> simp [h1, h2, Errorf0, hm]

/-- When `next` fails, `Length` returns that error and no value. -/
theorem Length_of_next_error {σ : Type} (ctx : Context) (obj : Any) (next : Resolver σ)
    (min : Int) (max : Option Int) (message : Option String) (st : σ) (res : Any)
    (err : GoError) (hnext : (next ctx st).1 = (res, some err)) :
    Length ctx obj next min max message st = (.ret .nil (some err), (next ctx st).2) := by
  unfold Length
  rcases hn : next ctx st with ⟨⟨res1, err1⟩, st1⟩
  rw [hn] at hnext
  simp only [Prod.mk.injEq] at hnext
  obtain ⟨rfl, rfl⟩ := hnext
  rfl

/-- Every handler of `DirectiveRoot` other than `Range` calls `next` at most
once: `ToNull` never, the others exactly once. -/
theorem other_handlers_call_next_at_most_once {σ : Type} (ctx : Context) (obj : Any)
    (next : Resolver σ) (min : Int) (max : Option Int) (message : Option String) (id : String)
    (st : σ) (n : Nat) :
    (Length ctx obj (counting next) min max message (st, n)).2.2 = n + 1 ∧
    (Custom ctx obj (counting next) (st, n)).2.2 = n + 1 ∧
    (Logged ctx obj (counting next) id (st, n)).2.2 = n + 1 ∧
    (ToNull ctx obj (counting next) (st, n)).2.2 = n ∧
    (Directive1 ctx obj (counting next) (st, n)).2.2 = n + 1 ∧
    (Directive2 ctx obj (counting next) (st, n)).2.2 = n + 1 := by
  refine ⟨?_, rfl, rfl, rfl, rfl, rfl⟩
  unfold Length counting
  rcases next ctx st with ⟨⟨res, err⟩, st1⟩
  cases err with
  | some e => rfl
  | none =>
    cases res <;> try rfl
    simp only []
    split
    · rfl
    · cases max with
      | none => rfl
      | some mx => simp only []; split <;> rfl

/-- C6: `Range` breaks the rule that a handler calls `next` at most once.  With
`min = 0`, no `max` and a `next` that returns the int 5, the call counter goes
from 0 to 2: once for the check and once more for `return next(ctx)`. -/
theorem C6_Range_calls_next_twice :
    (Range .background .nil (counting scripted) (some 0) none
      ([(.int 5, none), (.int 5, none)], 0)).2.2 = 2 := by
  decide

/-- C7: `Length` passes the directive-supplied message to `fmt.Errorf` as the
format.  With `min = 1`, the message `100% invalid` and the empty string from
`next`, the error text is `100%!i(MISSING)nvalid`, not the message. -/
theorem C7_Length_message_is_a_format_string :
    Length .background .nil scripted 1 none (some "100% invalid") [(.string "", none)]
      = (.ret .nil (some (.text "100%!i(MISSING)nvalid")), []) ∧
    "100%!i(MISSING)nvalid" ≠ "100% invalid" := by
  decide

/-- C8: for every id and context, `Logged` calls `next` once with the context
extended by `request_id ↦ &id` and returns its result unchanged; the extended
context agrees with the caller's on every other key; the `DirectiveField`
resolver run through `Logged` returns the id; and on a context `ctx0` without
`request_id` the resolver returns the id through `Logged` but the nil pointer
when run on `ctx0` itself. -/
theorem C8_Logged_binds_request_id {σ : Type} (ctx : Context) (obj : Any) (next : Resolver σ)
    (id : String) (st : σ) (ctx0 : Context)
    (h0 : Context.Value ctx0 "request_id" = Any.nil) :
    Logged ctx obj next id st
      = (.ret (next (.withValue ctx "request_id" (.stringPtr (some id))) st).1.1
              (next (.withValue ctx "request_id" (.stringPtr (some id))) st).1.2,
         (next (.withValue ctx "request_id" (.stringPtr (some id))) st).2) ∧
    Context.Value (.withValue ctx "request_id" (.stringPtr (some id))) "request_id"
      = .stringPtr (some id) ∧
    (∀ key, key ≠ "request_id" →
      Context.Value (.withValue ctx "request_id" (.stringPtr (some id))) key
        = Context.Value ctx key) ∧
    Logged ctx obj directiveFieldResolver id () = (.ret (.stringPtr (some id)) none, ()) ∧
    Logged ctx0 obj directiveFieldResolver id () = (.ret (.stringPtr (some id)) none, ()) ∧
    DirectiveField ctx0 = (.stringPtr none, none) := by
  refine ⟨rfl, ?_, ?_, ?_, ?_, ?_⟩
  · simp [Context.Value]
  · intro key hkey
    simp [Context.Value, hkey]
  · simp [Logged, directiveFieldResolver, DirectiveField, Context.Value]
  · simp [Logged, directiveFieldResolver, DirectiveField, Context.Value]
  · simp [DirectiveField, h0]

/-- Witness for C8 on the background context and the id of the test. -/
theorem C8_witness :
    Context.Value Context.background "request_id" = Any.nil ∧
    Logged Context.background Any.nil directiveFieldResolver "testes_id" ()
      = (.ret (.stringPtr (some "testes_id")) none, ()) ∧
    DirectiveField Context.background = (.stringPtr none, none) :=
  ⟨rfl,
   (C8_Logged_binds_request_id Context.background Any.nil directiveFieldResolver "testes_id" ()
      Context.background rfl).2.2.2.1,
   (C8_Logged_binds_request_id Context.background Any.nil directiveFieldResolver "testes_id" ()
      Context.background rfl).2.2.2.2.2⟩

/-- C9: the value `Range` returns is the result of a second call of `next`, not
the one it checked.  With `min = 0` and a `next` that yields 5 and then -100,
`Range` returns -100 without error, below the bound. -/
theorem C9_Range_returns_the_second_result :
    Range .background .nil scripted (some 0) none [(.int 5, none), (.int (-100), none)]
      = (.ret (.int (-100)) none, []) := by
  decide

/-- C10: the handlers are not total.  `Range` with `min = 0` panics on a nil
`*int` (nil dereference) and `Length` panics on a nil result (failed type
assertion). -/
theorem C10_handlers_panic :
    Range .background .nil scripted (some 0) none [(.intPtr none, none)]
      = (.panic "invalid memory address or nil pointer dereference", []) ∧
    Length .background .nil scripted 1 none none [(.nil, none)]
      = (.panic "interface conversion: interface is not string", []) := by
  decide

/-! ## Subscription client -/

/-- C1: once `connection_init` is written, for every stream of read outcomes
`WebsocketWithPayload` hands a `start` message to `WriteJSON` if and only if the
first read yields a message of type `connection_ack` and the second one of type
`ka`.  In every other case only `connection_init` was written and the
subscription returned is `errorSubscription` of the handshake error, which is
`ack: ` followed by the error of the read when the first or the second read
fails, and `expected ack message, got` the first message when the first message
is not a `connection_ack` and also when the second is not a `ka`.  After
`connection_ack` and `ka` the messages handed to `WriteJSON` are
`connection_init` and `start` (id `1`, the request body as payload); if that
write succeeds the live subscription is returned, if it fails with `e`,
`errorSubscription` of `start: e`.  Whenever the subscription returned is
`errorSubscription err`, each call of its `Next` returns `err`, leaves
`response` as it was and does not touch the connection, and its `Close`
returns nil and does not touch it either. -/
theorem C1_start_iff_ack_then_ka {ρ : Type} (h : Helpers ρ)
    (incoming : List (Except String operationMessage)) (writeErr : Nat → Option String)
    (body : String) (initPayload : Option String) (hw : writeErr 0 = none) :
    ∃ sub w,
      WebsocketWithPayload h (dialed body initPayload (Wire.fresh incoming writeErr)) = (sub, some w) ∧
      (startWritten w = true ↔
        ∃ a k rest, incoming = .ok a :: .ok k :: rest ∧
          a.Typ = connectionAckMsg ∧ k.Typ = connectionKaMsg) ∧
      ((¬ ∃ a k rest, incoming = .ok a :: .ok k :: rest ∧
          a.Typ = connectionAckMsg ∧ k.Typ = connectionKaMsg) →
        w.written = [initMessage initPayload]) ∧
      (incoming = [] → sub = errorSubscription (.text "ack: unexpected EOF")) ∧
      (∀ e rest, incoming = .error e :: rest → sub = errorSubscription (.text ("ack: " ++ e))) ∧
      (∀ a rest, incoming = .ok a :: rest → a.Typ ≠ connectionAckMsg →
        sub = errorSubscription (.expectedAckGot a)) ∧
      (∀ a, incoming = [.ok a] → a.Typ = connectionAckMsg →
        sub = errorSubscription (.text "ack: unexpected EOF")) ∧
      (∀ a e rest, incoming = .ok a :: .error e :: rest → a.Typ = connectionAckMsg →
        sub = errorSubscription (.text ("ack: " ++ e))) ∧
      (∀ a k rest, incoming = .ok a :: .ok k :: rest → a.Typ = connectionAckMsg →
        k.Typ ≠ connectionKaMsg → sub = errorSubscription (.expectedAckGot a)) ∧
      (∀ a k rest, incoming = .ok a :: .ok k :: rest → a.Typ = connectionAckMsg →
        k.Typ = connectionKaMsg →
        w.written = [initMessage initPayload, { Payload := body, ID := "1", Typ := startMsg }] ∧
        (writeErr 1 = none → sub = { Close := subscriptionClose, Next := subscriptionNext h }) ∧
        (∀ e, writeErr 1 = some e → sub = errorSubscription (.text ("start: " ++ e)))) ∧
      (∀ err, sub = errorSubscription err → ∀ (response : ρ) (w2 : Wire),
        sub.Next response w2 = ((some err, response), w2) ∧ sub.Close w2 = (none, w2)) := by
  have hinit : (match (initPayload.map Except.ok : Option (Except String String)) with
         | none => Except.ok ""
         | some r => r) = Except.ok (initPayload.getD "") := by
    cases initPayload <;> rfl
  have hs : (connectionInitMsg == startMsg) = false := by decide
  have hlast : ∀ (sub : Subscription ρ) err, sub = errorSubscription err →
      ∀ (response : ρ) (w2 : Wire),
        sub.Next response w2 = ((some err, response), w2) ∧ sub.Close w2 = (none, w2) := by
    rintro sub err rfl response w2
    exact ⟨rfl, rfl⟩
  match incoming with
  | [] =>
    simp only [WebsocketWithPayload, dialed, hinit, Wire.WriteJSON, Wire.fresh, List.length_nil,
      hw, List.nil_append, Wire.ReadJSON, Bool.false_eq_true, if_false]
    refine ⟨_, _, rfl, ?_, fun _ => rfl, fun _ => rfl, ?_, ?_, ?_, ?_, ?_, ?_, hlast _⟩
    · simp [startWritten, hs]
    all_goals (intros; simp_all)
  | .error e :: rest =>
    simp only [WebsocketWithPayload, dialed, hinit, Wire.WriteJSON, Wire.fresh, List.length_nil,
      hw, List.nil_append, Wire.ReadJSON, Bool.false_eq_true, if_false]
    refine ⟨_, _, rfl, ?_, fun _ => rfl, ?_, ?_, ?_, ?_, ?_, ?_, ?_, hlast _⟩
    · simp [startWritten, hs]
    · intro hh; simp at hh
    · rintro e2 rest2 hh
      simp only [List.cons.injEq, Except.error.injEq] at hh
      obtain ⟨rfl, -⟩ := hh
      rfl
    all_goals (intros; simp_all)
  | .ok a :: rest =>
    by_cases ha : a.Typ = connectionAckMsg
    · match rest with
      | [] =>
        simp only [WebsocketWithPayload, dialed, hinit, Wire.WriteJSON, Wire.fresh,
          List.length_nil, hw, List.nil_append, Wire.ReadJSON, Bool.false_eq_true, if_false,
          ha, ne_eq, not_true_eq_false]
        refine ⟨_, _, rfl, ?_, fun _ => rfl, ?_, ?_, ?_, fun _ _ _ => rfl, ?_, ?_, ?_, hlast _⟩
        · simp [startWritten, hs]
        · intro hh; simp at hh
        · intro _ _ hh; simp at hh
        · rintro a2 rest2 hh ha2
          simp only [List.cons.injEq, Except.ok.injEq] at hh
          obtain ⟨rfl, -⟩ := hh
          exact absurd ha ha2
        all_goals (intro _ _ _ hh; simp at hh)
      | .error e :: rest2 =>
        simp only [WebsocketWithPayload, dialed, hinit, Wire.WriteJSON, Wire.fresh,
          List.length_nil, hw, List.nil_append, Wire.ReadJSON, Bool.false_eq_true, if_false,
          ha, ne_eq, not_true_eq_false]
        refine ⟨_, _, rfl, ?_, fun _ => rfl, ?_, ?_, ?_, ?_, ?_, ?_, ?_, hlast _⟩
        · simp [startWritten, hs]
        · intro hh; simp at hh
        · intro _ _ hh; simp at hh
        · rintro a2 rest3 hh ha2
          simp only [List.cons.injEq, Except.ok.injEq] at hh
          obtain ⟨rfl, -⟩ := hh
          exact absurd ha ha2
        · intro _ hh; simp at hh
        · rintro a2 e2 rest3 hh -
          simp only [List.cons.injEq, Except.ok.injEq, Except.error.injEq] at hh
          obtain ⟨-, rfl, -⟩ := hh
          rfl
        all_goals (intro _ _ _ hh; simp at hh)
      | .ok k :: rest2 =>
        by_cases hk : k.Typ = connectionKaMsg
        · cases hw1 : writeErr 1 with
          | none =>
            simp only [WebsocketWithPayload, dialed, hinit, Wire.WriteJSON, Wire.fresh,
              List.length_nil, hw, List.nil_append, Wire.ReadJSON, Bool.false_eq_true, if_false,
              ha, hk, ne_eq, not_true_eq_false, List.length_singleton, List.singleton_append, hw1]
            refine ⟨_, _, rfl, ⟨fun _ => ⟨a, k, rest2, rfl, ha, hk⟩, fun _ => ?_⟩,
              fun hn => absurd ⟨a, k, rest2, rfl, ha, hk⟩ hn, ?_, ?_, ?_, ?_, ?_, ?_,
              fun _ _ _ _ _ _ => ⟨rfl, fun _ => rfl, fun e he => absurd he (by simp)⟩, hlast _⟩
            · simp [startWritten]
            · intro hh; simp at hh
            · intro _ _ hh; simp at hh
            · rintro a2 rest3 hh ha2
              simp only [List.cons.injEq, Except.ok.injEq] at hh
              obtain ⟨rfl, -⟩ := hh
              exact absurd ha ha2
            · intro _ hh; simp at hh
            · intro _ _ _ hh; simp at hh
            · rintro a2 k2 rest3 hh - hk2
              simp only [List.cons.injEq, Except.ok.injEq] at hh
              obtain ⟨-, rfl, -⟩ := hh
              exact absurd hk hk2
          | some e =>
            simp only [WebsocketWithPayload, dialed, hinit, Wire.WriteJSON, Wire.fresh,
              List.length_nil, hw, List.nil_append, Wire.ReadJSON, Bool.false_eq_true, if_false,
              ha, hk, ne_eq, not_true_eq_false, List.length_singleton, List.singleton_append, hw1]
            refine ⟨_, _, rfl, ⟨fun _ => ⟨a, k, rest2, rfl, ha, hk⟩, fun _ => ?_⟩,
              fun hn => absurd ⟨a, k, rest2, rfl, ha, hk⟩ hn, ?_, ?_, ?_, ?_, ?_, ?_,
              fun _ _ _ _ _ _ => ⟨rfl, fun hn => absurd hn (by simp), ?_⟩, hlast _⟩
            · simp [startWritten]
            · intro hh; simp at hh
            · intro _ _ hh; simp at hh
            · rintro a2 rest3 hh ha2
              simp only [List.cons.injEq, Except.ok.injEq] at hh
              obtain ⟨rfl, -⟩ := hh
              exact absurd ha ha2
            · intro _ hh; simp at hh
            · intro _ _ _ hh; simp at hh
            · rintro a2 k2 rest3 hh - hk2
              simp only [List.cons.injEq, Except.ok.injEq] at hh
              obtain ⟨-, rfl, -⟩ := hh
              exact absurd hk hk2
            · intro e2 he2
              simp only [Option.some.injEq] at he2
              subst he2
              rfl
        · simp only [WebsocketWithPayload, dialed, hinit, Wire.WriteJSON, Wire.fresh,
            List.length_nil, hw, List.nil_append, Wire.ReadJSON, Bool.false_eq_true, if_false,
            ha, hk, ne_eq, not_true_eq_false, not_false_eq_true, if_true]
          refine ⟨_, _, rfl, ?_, fun _ => rfl, ?_, ?_, ?_, ?_, ?_, ?_, ?_, hlast _⟩
          · simp [startWritten, hs, hk]
          · intro hh; simp at hh
          · intro _ _ hh; simp at hh
          · rintro a2 rest3 hh ha2
            simp only [List.cons.injEq, Except.ok.injEq] at hh
            obtain ⟨rfl, -⟩ := hh
            exact absurd ha ha2
          · intro _ hh; simp at hh
          · intro _ _ _ hh; simp at hh
          · rintro a2 k2 rest3 hh - -
            simp only [List.cons.injEq, Except.ok.injEq] at hh
            obtain ⟨rfl, -, -⟩ := hh
            rfl
          · rintro a2 k2 rest3 hh - hk2
            simp only [List.cons.injEq, Except.ok.injEq] at hh
            obtain ⟨-, rfl, -⟩ := hh
            exact absurd hk2 hk
    · simp only [WebsocketWithPayload, dialed, hinit, Wire.WriteJSON, Wire.fresh,
        List.length_nil, hw, List.nil_append, Wire.ReadJSON, Bool.false_eq_true, if_false,
        ha, ne_eq, not_false_eq_true, if_true]
      refine ⟨_, _, rfl, ?_, fun _ => rfl, ?_, ?_, ?_, ?_, ?_, ?_, ?_, hlast _⟩
      · simp [startWritten, hs]
        rintro x y rfl z - hxa
        exact absurd hxa ha
      · intro hh; simp at hh
      · intro _ _ hh; simp at hh
      · rintro a2 rest3 hh -
        simp only [List.cons.injEq, Except.ok.injEq] at hh
        obtain ⟨rfl, -⟩ := hh
        rfl
      · rintro a2 hh ha2
        simp only [List.cons.injEq, Except.ok.injEq] at hh
        obtain ⟨rfl, -⟩ := hh
        exact absurd ha2 ha
      · rintro a2 e2 rest3 hh ha2
        simp only [List.cons.injEq, Except.ok.injEq] at hh
        obtain ⟨rfl, -⟩ := hh
        exact absurd ha2 ha
      · rintro a2 k2 rest3 hh ha2
        simp only [List.cons.injEq, Except.ok.injEq] at hh
        obtain ⟨rfl, -⟩ := hh
        exact absurd ha2 ha
      · rintro a2 k2 rest3 hh ha2
        simp only [List.cons.injEq, Except.ok.injEq] at hh
        obtain ⟨rfl, -⟩ := hh
        exact absurd ha2 ha

/-- Witness for C1: a server that sends `data` first. -/
theorem C1_witness :
    (fun _ => none : Nat → Option String) 0 = none ∧
    ∃ (sub : Subscription TwoInts) (w : Wire),
      WebsocketWithPayload sampleHelpers
        (dialed "q" none (Wire.fresh [.ok ⟨"", "", "data"⟩] (fun _ => none))) = (sub, some w) ∧
      (startWritten w = true ↔
        ∃ a k rest, ([Except.ok ⟨"", "", "data"⟩] : List (Except String operationMessage))
            = .ok a :: .ok k :: rest ∧
          a.Typ = connectionAckMsg ∧ k.Typ = connectionKaMsg) ∧
      ((¬ ∃ a k rest, ([Except.ok ⟨"", "", "data"⟩] : List (Except String operationMessage))
            = .ok a :: .ok k :: rest ∧
          a.Typ = connectionAckMsg ∧ k.Typ = connectionKaMsg) →
        w.written = [initMessage none]) ∧
      (([Except.ok ⟨"", "", "data"⟩] : List (Except String operationMessage)) = [] →
        sub = errorSubscription (.text "ack: unexpected EOF")) ∧
      (∀ e rest, ([Except.ok ⟨"", "", "data"⟩] : List (Except String operationMessage))
            = .error e :: rest →
        sub = errorSubscription (.text ("ack: " ++ e))) ∧
      (∀ a rest, ([Except.ok ⟨"", "", "data"⟩] : List (Except String operationMessage))
            = .ok a :: rest →
        a.Typ ≠ connectionAckMsg → sub = errorSubscription (.expectedAckGot a)) ∧
      (∀ a, ([Except.ok ⟨"", "", "data"⟩] : List (Except String operationMessage)) = [.ok a] →
        a.Typ = connectionAckMsg → sub = errorSubscription (.text "ack: unexpected EOF")) ∧
      (∀ a e rest, ([Except.ok ⟨"", "", "data"⟩] : List (Except String operationMessage))
            = .ok a :: .error e :: rest →
        a.Typ = connectionAckMsg → sub = errorSubscription (.text ("ack: " ++ e))) ∧
      (∀ a k rest, ([Except.ok ⟨"", "", "data"⟩] : List (Except String operationMessage))
            = .ok a :: .ok k :: rest →
        a.Typ = connectionAckMsg → k.Typ ≠ connectionKaMsg →
        sub = errorSubscription (.expectedAckGot a)) ∧
      (∀ a k rest, ([Except.ok ⟨"", "", "data"⟩] : List (Except String operationMessage))
            = .ok a :: .ok k :: rest →
        a.Typ = connectionAckMsg → k.Typ = connectionKaMsg →
        w.written = [initMessage none, { Payload := "q", ID := "1", Typ := startMsg }] ∧
        ((fun _ => none : Nat → Option String) 1 = none →
          sub = { Close := subscriptionClose, Next := subscriptionNext sampleHelpers }) ∧
        (∀ e, (fun _ => none : Nat → Option String) 1 = some e →
          sub = errorSubscription (.text ("start: " ++ e)))) ∧
      (∀ err, sub = errorSubscription err → ∀ (response : TwoInts) (w2 : Wire),
        sub.Next response w2 = ((some err, response), w2) ∧ sub.Close w2 = (none, w2)) :=
  ⟨rfl, C1_start_iff_ack_then_ka sampleHelpers [.ok ⟨"", "", "data"⟩] (fun _ => none) "q" none rfl⟩

/-- C3: `Next` passes the payload of an `error` message to `fmt.Errorf` as the
format.  For the payload `[{"message":"100%"}]` the error text is
`[{"message":"100%!"(MISSING)}]`, not the payload; `response` is untouched. -/
theorem C3_error_payload_is_a_format_string :
    (subscriptionNext sampleHelpers ⟨0, 0⟩
      (Wire.fresh [.ok ⟨"[\x7b\"message\":\"100%\"\x7d]", "1", "error"⟩] (fun _ => none))).1
      = (some (.text "[\x7b\"message\":\"100%!\"(MISSING)\x7d]"), ⟨0, 0⟩) ∧
    "[\x7b\"message\":\"100%!\"(MISSING)\x7d]" ≠ "[\x7b\"message\":\"100%\"\x7d]" := by
  decide

/-- C4, as stated, fails: `Next` hands `response` to `unpack`, and an `unpack`
that fills a struct field by field leaves `A = 1` behind when `B` does not
decode, so `Next` returns an error and `response` is modified. -/
theorem C4_response_modified_on_unpack_error :
    (subscriptionNext sampleHelpers ⟨0, 0⟩
      (Wire.fresh [.ok ⟨"\x7b\"data\":\x7b\"A\":1,\"B\":\"x\"\x7d\x7d", "1", "data"⟩]
        (fun _ => none))).1
      = (some (.unpackFailed [.unconvertible "B"]), ⟨1, 0⟩) := by
  decide

/-- C4, amended: for every `data` message `Next` reads, whatever `json.Unmarshal`
and `unpack` do: a payload that fails to decode gives the error `decode: ...`;
a non-nil `errors` entry gives the error of unpacking it, or `errors: ...` when
the unpacked list is non-empty; in these cases `response` is unmodified.
Otherwise (`errors` absent, null or unpacked to the empty list) the outcome of
`Next`, error and `response`, is that of `unpack(data, response)`.  `Next`
returns an error exactly in the cases listed. -/
theorem C4_next_on_data {ρ : Type} (h : Helpers ρ) (response : ρ) (w w1 : Wire)
    (op : operationMessage) (hread : w.ReadJSON = (.ok op, w1)) (htyp : op.Typ = dataMsg) :
    (subscriptionNext h response w).2 = w1 ∧
    (∀ e, h.jsonUnmarshal op.Payload = .error e →
      (subscriptionNext h response w).1 = (some (.text ("decode: " ++ e)), response)) ∧
    (∀ m, h.jsonUnmarshal op.Payload = .ok m →
      ((mapIndex m "errors").notNil = true →
        ∀ err, h.unpackErrors (mapIndex m "errors") = .error err →
          (subscriptionNext h response w).1 = (some err, response)) ∧
      ((mapIndex m "errors").notNil = true →
        ∀ errs, h.unpackErrors (mapIndex m "errors") = .ok errs → errs ≠ [] →
          (subscriptionNext h response w).1 = (some (.errorsList errs), response)) ∧
      (((mapIndex m "errors").notNil = false ∨ h.unpackErrors (mapIndex m "errors") = .ok []) →
        (subscriptionNext h response w).1 = h.unpack (mapIndex m "data") response)) ∧
    ((subscriptionNext h response w).1.1.isSome = true ↔
      (∃ e, h.jsonUnmarshal op.Payload = .error e) ∨
      (∃ m, h.jsonUnmarshal op.Payload = .ok m ∧
        (((mapIndex m "errors").notNil = true ∧
            ((∃ err, h.unpackErrors (mapIndex m "errors") = .error err) ∨
             (∃ errs, h.unpackErrors (mapIndex m "errors") = .ok errs ∧ errs ≠ []))) ∨
         (((mapIndex m "errors").notNil = false ∨
              h.unpackErrors (mapIndex m "errors") = .ok []) ∧
            (h.unpack (mapIndex m "data") response).1.isSome = true)))) := by
  have hne : ¬ op.Typ ≠ dataMsg := by simp [htyp]
  refine ⟨?_, ?_, ?_, ?_⟩
  · unfold subscriptionNext
    simp only [hread, hne, if_false]
    cases h.jsonUnmarshal op.Payload with
    | error e => rfl
    | ok m =>
      simp only []
      cases hnn : (mapIndex m "errors").notNil with
      | false => simp
      | true =>
        simp only [if_true]
        cases h.unpackErrors (mapIndex m "errors") with
        | error err => rfl
        | ok errs =>
          simp only []
          split <;> rfl
  · intro e he
    unfold subscriptionNext
    simp only [hread, hne, if_false, he]
  · intro m hm
    refine ⟨?_, ?_, ?_⟩
    · intro hnn err herr
      unfold subscriptionNext
      simp only [hread, hne, if_false, hm, hnn, if_true, herr]
    · intro hnn errs herrs hpos
      have hlen : errs.length > 0 := List.length_pos.mpr hpos
      unfold subscriptionNext
      simp only [hread, hne, if_false, hm, hnn, if_true, herrs, hlen]
    · intro hcase
      unfold subscriptionNext
      simp only [hread, hne, if_false, hm]
      cases hnn : (mapIndex m "errors").notNil with
      | false => simp
      | true =>
        rcases hcase with hc | hc
        · rw [hnn] at hc; exact absurd hc (by decide)
        · simp [hc]
  · unfold subscriptionNext
    simp only [hread, hne, if_false]
    cases hj : h.jsonUnmarshal op.Payload with
    | error e => simp
    | ok m =>
      cases hnn : (mapIndex m "errors").notNil with
      | false => simp [hnn]
      | true =>
        cases hu : h.unpackErrors (mapIndex m "errors") with
        | error err => simp [hnn, hu]
        | ok errs =>
          cases errs with
          | nil => simp [hnn, hu]
          | cons a l => simp [hnn, hu]

/-- Witness for C4: the payload whose `B` does not decode. -/
theorem C4_witness :
    (Wire.fresh [.ok ⟨"\x7b\"data\":\x7b\"A\":1,\"B\":\"x\"\x7d\x7d", "1", "data"⟩]
        (fun _ => none)).ReadJSON
      = (.ok ⟨"\x7b\"data\":\x7b\"A\":1,\"B\":\"x\"\x7d\x7d", "1", "data"⟩,
         Wire.fresh [] (fun _ => none)) ∧
    (subscriptionNext sampleHelpers ⟨0, 0⟩
      (Wire.fresh [.ok ⟨"\x7b\"data\":\x7b\"A\":1,\"B\":\"x\"\x7d\x7d", "1", "data"⟩]
        (fun _ => none))).2 = Wire.fresh [] (fun _ => none) :=
  ⟨rfl,
   (C4_next_on_data sampleHelpers ⟨0, 0⟩
      (Wire.fresh [.ok ⟨"\x7b\"data\":\x7b\"A\":1,\"B\":\"x\"\x7d\x7d", "1", "data"⟩]
        (fun _ => none))
      (Wire.fresh [] (fun _ => none))
      ⟨"\x7b\"data\":\x7b\"A\":1,\"B\":\"x\"\x7d\x7d", "1", "data"⟩ rfl rfl).1⟩

/-! ## The JSON codec -/

/-! ## JSON strings -/

theorem hexVal_hexDigit (k : Nat) (hk : k < 16) : hexVal (hexDigit k) = some k := by
  interval_cases k <;> decide

/-- A unit written by `compact` is read back as the same unit. -/
theorem stringStep_unit_stable (s out rest : List Char) (h : stringStep s = .unit out rest)
    (t : List Char) : stringStep (out ++ t) = .unit out t ∧ 1 ≤ out.length := by
  unfold stringStep at h
  split at h
  · cases h
  · rename_i c tl
    by_cases h1 : c = '"'
    · simp [h1] at h
    · simp only [h1, if_false] at h
      by_cases h2 : c = '\\'
      · simp only [h2, if_true] at h
        split at h
        · cases h
        · rename_i e t2
          by_cases h3 : e = 'u'
          · simp only [h3, if_true] at h
            split at h
            · rename_i a b c2 d t3
              split at h
              · rename_i hx
                simp only [StrStep.unit.injEq] at h
                obtain ⟨rfl, rfl⟩ := h
                simp [stringStep, hx]
              · cases h
            · cases h
          · simp only [h3, if_false] at h
            split at h
            · rename_i he
              simp only [StrStep.unit.injEq] at h
              obtain ⟨rfl, rfl⟩ := h
              simp [stringStep, h3, he]
            · cases h
      · simp only [h2, if_false] at h
        split at h
        · cases h
        · rename_i h4
          split at h
          · rename_i h5
            simp only [StrStep.unit.injEq] at h
            obtain ⟨rfl, rfl⟩ := h
            rcases h5 with rfl | rfl | rfl <;> exact ⟨by rfl, by decide⟩
          · rename_i h5
            split at h
            · rename_i h6
              simp only [StrStep.unit.injEq] at h
              obtain ⟨rfl, rfl⟩ := h
              rcases h6 with h6 | h6 <;> simp [escapeU202, h6] <;> rfl
            · rename_i h6
              simp only [StrStep.unit.injEq] at h
              obtain ⟨rfl, rfl⟩ := h
              simp [stringStep, h1, h2, h4, h5, h6]

/-- The compacted form of a string literal is read back unchanged, whatever
follows it. -/
theorem scanStringLoop_rescan (f : Nat) : ∀ (s b r : List Char),
    scanStringLoop f s = some (b, r) →
    ∀ (f2 : Nat) (t : List Char), b.length ≤ f2 → scanStringLoop f2 (b ++ t) = some (b, t) := by
  induction f with
  | zero => intro s b r h; simp [scanStringLoop] at h
  | succ f ih =>
    intro s b r h f2 t hf
    unfold scanStringLoop at h
    cases hs : stringStep s with
    | bad => simp [hs] at h
    | close rest =>
      simp only [hs, Option.some.injEq, Prod.mk.injEq] at h
      obtain ⟨rfl, rfl⟩ := h
      obtain ⟨f3, rfl⟩ : ∃ f3, f2 = f3 + 1 := ⟨f2 - 1, by simp at hf; omega⟩
      simp [scanStringLoop, stringStep]
    | unit out rest =>
      simp only [hs] at h
      cases hr : scanStringLoop f rest with
      | none => simp [hr] at h
      | some p =>
        obtain ⟨body, rest2⟩ := p
        simp only [hr, Option.some.injEq, Prod.mk.injEq] at h
        obtain ⟨rfl, rfl⟩ := h
        have hu := stringStep_unit_stable s out rest hs (body ++ t)
        obtain ⟨f3, rfl⟩ : ∃ f3, f2 = f3 + 1 :=
          ⟨f2 - 1, by have := hu.2; simp at hf; omega⟩
        have hb : body.length ≤ f3 := by
          have := hu.2
          simp at hf
          omega
        have ih2 := ih rest body rest2 hr f3 t hb
        rw [List.append_assoc]
        unfold scanStringLoop
        simp only [hu.1, ih2]

theorem scanString_rescan (s b r : List Char) (h : scanString s = some (b, r)) (t : List Char) :
    scanString (b ++ t) = some (b, t) := by
  unfold scanString at h ⊢
  exact scanStringLoop_rescan _ s b r h _ t (by simp; omega)

/-- The encoder never writes a unit that `compact` would change. -/
theorem stringStep_encodeChar (c : Char) (t : List Char) :
    stringStep (encodeChar c ++ t) = .unit (encodeChar c) t := by
  unfold encodeChar
  by_cases h1 : c = '"' ∨ c = '\\'
  · rw [if_pos h1]
    rcases h1 with rfl | rfl <;> rfl
  · rw [if_neg h1]
    by_cases h2 : c = '\n'
    · rw [if_pos h2]; rfl
    · rw [if_neg h2]
      by_cases h3 : c = '\r'
      · rw [if_pos h3]; rfl
      · rw [if_neg h3]
        by_cases h4 : c = '\t'
        · rw [if_pos h4]; rfl
        · rw [if_neg h4]
          by_cases h5 : c.toNat < 32 ∨ c = '<' ∨ c = '>' ∨ c = '&'
          · rw [if_pos h5]
            have hlt : c.toNat < 128 := by
              rcases h5 with h | rfl | rfl | rfl
              · omega
              · decide
              · decide
              · decide
            have hx := hexVal_hexDigit (c.toNat / 16) (by omega)
            have hy := hexVal_hexDigit (c.toNat % 16) (by omega)
            have h0 : hexVal '0' = some 0 := by decide
            simp [escapeU00, stringStep, hx, hy, h0]
          · rw [if_neg h5]
            by_cases h6 : c.toNat = 8232 ∨ c.toNat = 8233
            · rw [if_pos h6]
              rcases h6 with h6 | h6 <;> simp [escapeU202, h6] <;> rfl
            · rw [if_neg h6]
              push_neg at h1 h5 h6
              simp [stringStep, h1.1, h1.2, h5.1, h5.2.1, h5.2.2.1, h5.2.2.2, h6.1, h6.2]

theorem encodeChar_length_pos (c : Char) : 1 ≤ (encodeChar c).length := by
  unfold encodeChar escapeU00 escapeU202
  split_ifs <;> simp

/-- An encoded string body followed by a quote scans as itself. -/
theorem scanStringLoop_encodeBody (s : List Char) : ∀ (f : Nat) (t : List Char),
    (encodeBody s).length + 1 ≤ f →
    scanStringLoop f (encodeBody s ++ '"' :: t) = some (encodeBody s ++ ['"'], t) := by
  induction s with
  | nil =>
    intro f t hf
    obtain ⟨f3, rfl⟩ : ∃ f3, f = f3 + 1 := ⟨f - 1, by omega⟩
    simp [encodeBody, scanStringLoop, stringStep]
  | cons c cs ih =>
    intro f t hf
    have hpos := encodeChar_length_pos c
    simp only [encodeBody, List.length_append] at hf
    obtain ⟨f3, rfl⟩ : ∃ f3, f = f3 + 1 := ⟨f - 1, by omega⟩
    have ih2 := ih f3 t (by omega)
    simp only [encodeBody, List.append_assoc]
    unfold scanStringLoop
    simp only [stringStep_encodeChar, ih2]

theorem scanString_encodeBody (s t : List Char) :
    scanString (encodeBody s ++ '"' :: t) = some (encodeBody s ++ ['"'], t) := by
  unfold scanString
  exact scanStringLoop_encodeBody s _ t (by simp)

theorem getu4_escapeU00 (n : Nat) (hn : n < 128) :
    getu4 '0' '0' (hexDigit (n / 16)) (hexDigit (n % 16)) = some n := by
  have hx := hexVal_hexDigit (n / 16) (by omega)
  have hy := hexVal_hexDigit (n % 16) (by omega)
  have h0 : hexVal '0' = some 0 := by decide
  simp only [getu4, h0, hx, hy, Option.some.injEq]
  omega

theorem Char_ofNat_toNat (c : Char) : Char.ofNat c.toNat = c := by
  simp [Char.ofNat, Char.toNat, c.valid]
  rfl

/-- Unquoting what the encoder wrote for one character gives that character. -/
theorem unquoteStep_encodeChar (c : Char) (t : List Char) :
    unquoteStep (encodeChar c ++ t) = some (c, t) := by
  unfold encodeChar
  by_cases h1 : c = '"' ∨ c = '\\'
  · rw [if_pos h1]
    rcases h1 with rfl | rfl <;> rfl
  · rw [if_neg h1]
    by_cases h2 : c = '\n'
    · rw [if_pos h2, h2]; rfl
    · rw [if_neg h2]
      by_cases h3 : c = '\r'
      · rw [if_pos h3, h3]; rfl
      · rw [if_neg h3]
        by_cases h4 : c = '\t'
        · rw [if_pos h4, h4]; rfl
        · rw [if_neg h4]
          by_cases h5 : c.toNat < 32 ∨ c = '<' ∨ c = '>' ∨ c = '&'
          · rw [if_pos h5]
            have hlt : c.toNat < 128 := by
              rcases h5 with h | rfl | rfl | rfl
              · omega
              · decide
              · decide
              · decide
            have hg := getu4_escapeU00 c.toNat hlt
            have hs : ¬ (0xD800 ≤ c.toNat ∧ c.toNat < 0xE000) := by omega
            simp only [escapeU00, unquoteStep, List.cons_append, List.nil_append, if_true, hg, hs,
              if_false, Char_ofNat_toNat]
          · rw [if_neg h5]
            by_cases h6 : c.toNat = 8232 ∨ c.toNat = 8233
            · rw [if_pos h6]
              have hc := Char_ofNat_toNat c
              rcases h6 with h6 | h6
              · rw [h6] at hc
                rw [← hc]
                rfl
              · rw [h6] at hc
                rw [← hc]
                rfl
            · rw [if_neg h6]
              push_neg at h1 h5
              have h7 : ¬ (c = '"' ∨ c.toNat < 32) := by
                push_neg
                exact ⟨h1.1, by omega⟩
              simp only [unquoteStep, List.cons_append, List.nil_append, h1.2, if_false, h7]

theorem unquoteLoop_encodeBody (s : List Char) : ∀ (f : Nat),
    (encodeBody s).length ≤ f → unquoteLoop f (encodeBody s) = some s := by
  induction s with
  | nil => intro f _; cases f <;> rfl
  | cons c cs ih =>
    intro f hf
    have hpos := encodeChar_length_pos c
    simp only [encodeBody, List.length_append] at hf
    obtain ⟨f3, rfl⟩ : ∃ f3, f = f3 + 1 := ⟨f - 1, by omega⟩
    have ih2 := ih f3 (by omega)
    have hu := unquoteStep_encodeChar c (encodeBody cs)
    simp only [encodeBody]
    cases he : encodeChar c ++ encodeBody cs with
    | nil =>
      have := congrArg List.length he
      simp only [List.length_append, List.length_nil] at this
      omega
    | cons x xs =>
      rw [he] at hu
      simp only [unquoteLoop, hu, ih2, Option.map_some']

theorem unquote_encodeBody (s : String) : unquote (encodeBody s.data) = some s := by
  unfold unquote
  rw [unquoteLoop_encodeBody s.data _ (le_refl _)]
  rfl

/-! ## JSON numbers -/

theorem takeWhile_append_stop (p : Char → Bool) (ds t : List Char)
    (hds : ∀ c ∈ ds, p c = true) (ht : ∀ c, t.head? = some c → p c = false) :
    (ds ++ t).takeWhile p = ds ∧ (ds ++ t).dropWhile p = t := by
  induction ds with
  | nil =>
    cases t with
    | nil => simp
    | cons c tl =>
      have := ht c rfl
      simp [List.takeWhile, List.dropWhile, this]
  | cons d ds ih =>
    have hd := hds d (by simp)
    have := ih (fun c hc => hds c (by simp [hc]))
    simp [List.takeWhile, List.dropWhile, hd, this.1, this.2]

theorem takeWhile_all (p : Char → Bool) (s : List Char) : ∀ c ∈ s.takeWhile p, p c = true := by
  induction s with
  | nil => simp
  | cons a t ih =>
    intro c hc
    by_cases ha : p a = true
    · simp only [List.takeWhile, ha, List.mem_cons] at hc
      rcases hc with rfl | hc
      · exact ha
      · exact ih c hc
    · simp [List.takeWhile, ha] at hc

theorem scanDigits_rescan (s ds r : List Char) (h : scanDigits s = some (ds, r))
    (t : List Char) (ht : ∀ c, t.head? = some c → isDecimal c = false) :
    scanDigits (ds ++ t) = some (ds, t) ∧ ∃ d tl, ds = d :: tl ∧ isDecimal d = true := by
  unfold scanDigits at h
  split at h
  · cases h
  · rename_i d tl hd
    simp only [Option.some.injEq, Prod.mk.injEq] at h
    obtain ⟨rfl, rfl⟩ := h
    have hall : ∀ c ∈ d :: tl, isDecimal c = true := by
      rw [← hd]; exact takeWhile_all _ _
    have := takeWhile_append_stop isDecimal (d :: tl) t hall ht
    refine ⟨?_, d, tl, rfl, hall d (by simp)⟩
    unfold scanDigits
    rw [this.1, this.2]

theorem scanInt_rescan (s i r : List Char) (h : scanInt s = some (i, r))
    (t : List Char) (ht : ∀ c, t.head? = some c → isDecimal c = false) :
    scanInt (i ++ t) = some (i, t) ∧
      ∃ d tl, i = d :: tl ∧ isDecimal d = true ∧ s.head? = some d := by
  unfold scanInt at h
  split at h
  · rename_i c tl
    by_cases h0 : c = '0'
    · simp only [h0, if_true, Option.some.injEq, Prod.mk.injEq] at h
      obtain ⟨rfl, rfl⟩ := h
      exact ⟨by simp [scanInt], '0', [], rfl, by decide, by simp [h0]⟩
    · simp only [h0, if_false] at h
      by_cases hd : isDecimal c = true
      · simp only [hd, if_true, Option.some.injEq, Prod.mk.injEq] at h
        obtain ⟨rfl, rfl⟩ := h
        have := takeWhile_append_stop isDecimal (tl.takeWhile isDecimal) t (takeWhile_all _ _) ht
        refine ⟨?_, c, _, rfl, hd, rfl⟩
        simp only [scanInt, List.cons_append, h0, if_false, hd, if_true, this.1, this.2]
      · simp [hd] at h
  · cases h

theorem scanFraction_rescan (s f r : List Char) (h : scanFraction s = some (f, r))
    (t : List Char) (ht : ∀ c, t.head? = some c → isDecimal c = false ∧ c ≠ '.') :
    scanFraction (f ++ t) = some (f, t) ∧ (f = [] ∨ f.head? = some '.') := by
  unfold scanFraction at h
  split at h
  · rename_i c tl
    by_cases hc : c = '.'
    · simp only [hc, if_true] at h
      cases hd : scanDigits tl with
      | none => simp [hd] at h
      | some p =>
        obtain ⟨ds, r2⟩ := p
        simp only [hd, Option.map_some', Option.some.injEq, Prod.mk.injEq] at h
        obtain ⟨rfl, rfl⟩ := h
        have := scanDigits_rescan tl ds r2 hd t (fun c hc => (ht c hc).1)
        exact ⟨by simp [scanFraction, this.1], Or.inr rfl⟩
    · simp only [hc, if_false, Option.some.injEq, Prod.mk.injEq] at h
      obtain ⟨rfl, rfl⟩ := h
      refine ⟨?_, Or.inl rfl⟩
      cases t with
      | nil => rfl
      | cons x xs =>
        have := ht x rfl
        simp [scanFraction, this.2]
  · simp only [Option.some.injEq, Prod.mk.injEq] at h
    obtain ⟨rfl, rfl⟩ := h
    refine ⟨?_, Or.inl rfl⟩
    cases t with
    | nil => rfl
    | cons x xs =>
      have := ht x rfl
      simp [scanFraction, this.2]

theorem scanExponent_rescan (s e r : List Char) (h : scanExponent s = some (e, r))
    (t : List Char) (ht : numEnd t) :
    scanExponent (e ++ t) = some (e, t) ∧
      (e = [] ∨ e.head? = some 'e' ∨ e.head? = some 'E') := by
  have hstop : scanExponent ([] ++ t) = some ([], t) := by
    cases t with
    | nil => rfl
    | cons x xs =>
      have := ht x rfl
      simp [scanExponent, this.2.2.1, this.2.2.2]
  unfold scanExponent at h
  split at h
  · rename_i c tl
    by_cases hc : c = 'e' ∨ c = 'E'
    · simp only [hc, if_true] at h
      split at h
      · rename_i sg t2
        by_cases hs : sg = '+' ∨ sg = '-'
        · simp only [hs, if_true] at h
          cases hd : scanDigits t2 with
          | none => simp [hd] at h
          | some p =>
            obtain ⟨ds, r2⟩ := p
            simp only [hd, Option.map_some', Option.some.injEq, Prod.mk.injEq] at h
            obtain ⟨rfl, rfl⟩ := h
            have := scanDigits_rescan t2 ds r2 hd t (fun c hc => (ht c hc).1)
            refine ⟨?_, Or.inr (by rcases hc with rfl | rfl <;> simp)⟩
            simp [scanExponent, hc, hs, this.1]
        · simp only [hs, if_false] at h
          cases hd : scanDigits (sg :: t2) with
          | none => simp [hd] at h
          | some p =>
            obtain ⟨ds, r2⟩ := p
            simp only [hd, Option.map_some', Option.some.injEq, Prod.mk.injEq] at h
            obtain ⟨rfl, rfl⟩ := h
            have := scanDigits_rescan (sg :: t2) ds r2 hd t (fun c hc => (ht c hc).1)
            obtain ⟨hres, d, dtl, rfl, hdd⟩ := this
            have hdne : ¬ (d = '+' ∨ d = '-') := by
              rintro (rfl | rfl) <;> exact absurd hdd (by decide)
            refine ⟨?_, Or.inr (by rcases hc with rfl | rfl <;> simp)⟩
            simp only [scanExponent, List.cons_append, hc, if_true, hdne, if_false]
            rw [← List.cons_append, hres]
            rfl
      · cases h
    · simp only [hc, if_false, Option.some.injEq, Prod.mk.injEq] at h
      obtain ⟨rfl, rfl⟩ := h
      exact ⟨hstop, Or.inl rfl⟩
  · simp only [Option.some.injEq, Prod.mk.injEq] at h
    obtain ⟨rfl, rfl⟩ := h
    exact ⟨hstop, Or.inl rfl⟩

theorem numEnd_exponent (e t : List Char) (he : e = [] ∨ e.head? = some 'e' ∨ e.head? = some 'E')
    (ht : numEnd t) : ∀ c, (e ++ t).head? = some c → isDecimal c = false ∧ c ≠ '.' := by
  intro c hc
  rcases he with rfl | he | he
  · exact ⟨(ht c hc).1, (ht c hc).2.1⟩
  · cases e with
    | nil => simp at he
    | cons x xs =>
      simp only [List.head?_cons, Option.some.injEq] at he
      simp only [List.cons_append, List.head?_cons, Option.some.injEq] at hc
      subst he; subst hc
      exact ⟨by decide, by decide⟩
  · cases e with
    | nil => simp at he
    | cons x xs =>
      simp only [List.head?_cons, Option.some.injEq] at he
      simp only [List.cons_append, List.head?_cons, Option.some.injEq] at hc
      subst he; subst hc
      exact ⟨by decide, by decide⟩

theorem numEnd_fraction (f e t : List Char) (hf : f = [] ∨ f.head? = some '.')
    (he : e = [] ∨ e.head? = some 'e' ∨ e.head? = some 'E') (ht : numEnd t) :
    ∀ c, (f ++ (e ++ t)).head? = some c → isDecimal c = false := by
  intro c hc
  rcases hf with rfl | hf
  · exact (numEnd_exponent e t he ht c hc).1
  · cases f with
    | nil => simp at hf
    | cons x xs =>
      simp only [List.head?_cons, Option.some.injEq] at hf
      simp only [List.cons_append, List.head?_cons, Option.some.injEq] at hc
      subst hf; subst hc
      decide

/-- A number literal is read back unchanged when what follows does not continue
it. -/
theorem scanNumber_rescan (s n r : List Char) (h : scanNumber s = some (n, r))
    (t : List Char) (ht : numEnd t) :
    scanNumber (n ++ t) = some (n, t) ∧
      ∃ d tl, n = d :: tl ∧ s.head? = some d ∧ (d = '-' ∨ isDecimal d = true) := by
  unfold scanNumber at h
  cases hi : scanInt (match s with
      | c :: t => if c = '-' then (['-'], t) else ([], s)
      | [] => ([], s)).2 with
  | none => simp [hi] at h
  | some pi =>
    obtain ⟨i, s2⟩ := pi
    simp only [hi] at h
    cases hf : scanFraction s2 with
    | none => simp [hf] at h
    | some pf =>
      obtain ⟨f, s3⟩ := pf
      simp only [hf] at h
      cases he : scanExponent s3 with
      | none => simp [he] at h
      | some pe =>
        obtain ⟨e, s4⟩ := pe
        simp only [he, Option.some.injEq, Prod.mk.injEq] at h
        obtain ⟨hn, rfl⟩ := h
        have hE := scanExponent_rescan s3 e s4 he t ht
        have hF := scanFraction_rescan s2 f s3 hf (e ++ t) (numEnd_exponent e t hE.2 ht)
        have hI := scanInt_rescan _ i s2 hi (f ++ (e ++ t)) (numEnd_fraction f e t hF.2 hE.2 ht)
        obtain ⟨hI1, d, dtl, rfl, hd, hhead⟩ := hI
        cases s with
        | nil => simp at hhead
        | cons c tl =>
          by_cases hc : c = '-'
          · simp only [hc, if_true] at hn hhead
            subst hn
            refine ⟨?_, '-', _, rfl, by simp [hc], Or.inl rfl⟩
            simp only [scanNumber, List.cons_append, List.nil_append, List.append_assoc, if_true]
            simp only [List.cons_append, List.append_assoc] at hI1
            simp only [hI1, hF.1, hE.1, List.cons_append]
          · simp only [hc, if_false, List.head?_cons, Option.some.injEq] at hn hhead
            subst hn
            subst hhead
            refine ⟨?_, c, _, rfl, rfl, Or.inr hd⟩
            simp only [scanNumber, List.cons_append, List.nil_append, List.append_assoc, hc,
              if_false]
            simp only [List.cons_append, List.append_assoc] at hI1
            simp only [hI1, hF.1, hE.1, List.cons_append]

theorem scanWord_rescan (w t : List Char) : scanWord w (w ++ t) = some (w, t) := by
  simp [scanWord]

theorem scanWord_eq (w s out r : List Char) (h : scanWord w s = some (out, r)) : out = w := by
  unfold scanWord at h
  split at h
  · simp only [Option.some.injEq, Prod.mk.injEq] at h
    exact h.1.symm
  · cases h

/-! ## Rescanning compacted JSON -/

theorem numEnd_of_delim (t : List Char) (h : delim t) : numEnd t := by
  intro c hc
  rcases h c hc with rfl | rfl | rfl <;> decide

theorem delim_cons_comma (t : List Char) : delim (',' :: t) := by
  intro c hc
  simp only [List.head?_cons, Option.some.injEq] at hc
  exact Or.inl hc.symm

theorem delim_cons_bracket (t : List Char) : delim (']' :: t) := by
  intro c hc
  simp only [List.head?_cons, Option.some.injEq] at hc
  exact Or.inr (Or.inl hc.symm)

theorem delim_cons_brace (t : List Char) : delim ('}' :: t) := by
  intro c hc
  simp only [List.head?_cons, Option.some.injEq] at hc
  exact Or.inr (Or.inr hc.symm)

theorem skipSpace_cons (h : Char) (tl : List Char) (hh : isSpace h = false) :
    skipSpace (h :: tl) = h :: tl := by
  simp [skipSpace, List.dropWhile, hh]

theorem digit_not_special (d : Char) (hd : d = '-' ∨ isDecimal d = true) :
    isSpace d = false ∧ d ≠ ']' ∧ d ≠ '}' := by
  rcases hd with rfl | hd
  · decide
  · have h1 : d ≠ ' ' := by rintro rfl; exact absurd hd (by decide)
    have h2 : d ≠ '\t' := by rintro rfl; exact absurd hd (by decide)
    have h3 : d ≠ '\r' := by rintro rfl; exact absurd hd (by decide)
    have h4 : d ≠ '\n' := by rintro rfl; exact absurd hd (by decide)
    have h5 : d ≠ ']' := by rintro rfl; exact absurd hd (by decide)
    have h6 : d ≠ '}' := by rintro rfl; exact absurd hd (by decide)
    exact ⟨by simp [isSpace, h1, h2, h3, h4], h5, h6⟩

theorem scanJSON_value_rescan (f : Nat)
    (ih : ∀ (mode : ScanMode) (s c r : List Char), scanJSON f mode s = some (c, r) →
      startsToken mode c ∧
      ∀ (f2 : Nat) (t : List Char), 2 * c.length + 2 ≤ f2 → delim t →
        scanJSON f2 mode (c ++ t) = some (c, t))
    (s c r : List Char) (h : scanJSON (f + 1) .value s = some (c, r)) :
    startsToken .value c ∧
      ∀ (f2 : Nat) (t : List Char), 2 * c.length + 2 ≤ f2 → delim t →
        scanJSON f2 .value (c ++ t) = some (c, t) := by
  unfold scanJSON at h
  cases s with
  | nil => simp at h
  | cons c0 t0 =>
    simp only [] at h
    by_cases hq : c0 = '"'
    · simp only [hq, if_true] at h
      cases hs : scanString t0 with
      | none => simp [hs] at h
      | some p =>
        obtain ⟨b, r2⟩ := p
        simp only [hs, Option.map_some', Option.some.injEq, Prod.mk.injEq] at h
        obtain ⟨rfl, rfl⟩ := h
        refine ⟨⟨'"', b, rfl, by decide, by decide, by decide, fun hm => by cases hm⟩, ?_⟩
        intro f2 t hf _
        obtain ⟨f3, rfl⟩ : ∃ f3, f2 = f3 + 1 := ⟨f2 - 1, by omega⟩
        have := scanString_rescan t0 b r2 hs t
        simp [scanJSON, this]
    · simp only [hq, if_false] at h
      by_cases ha : c0 = '['
      · simp only [ha, if_true] at h
        cases hsk : skipSpace t0 with
        | nil => simp [hsk] at h
        | cons c2 t2 =>
          simp only [hsk] at h
          by_cases hc2 : c2 = ']'
          · simp only [hc2, if_true, Option.some.injEq, Prod.mk.injEq] at h
            obtain ⟨rfl, rfl⟩ := h
            refine ⟨⟨'[', [']'], rfl, by decide, by decide, by decide, fun hm => by cases hm⟩, ?_⟩
            intro f2 t hf _
            obtain ⟨f3, rfl⟩ : ∃ f3, f2 = f3 + 1 := ⟨f2 - 1, by omega⟩
            have hsk2 : skipSpace (']' :: t) = ']' :: t := skipSpace_cons _ _ (by decide)
            simp [scanJSON, hsk2]
          · simp only [hc2, if_false] at h
            cases he : scanJSON f .elems (c2 :: t2) with
            | none => simp [he] at h
            | some p =>
              obtain ⟨ce, r2⟩ := p
              simp only [he, Option.map_some', Option.some.injEq, Prod.mk.injEq] at h
              obtain ⟨rfl, rfl⟩ := h
              obtain ⟨⟨hd, tl, rfl, hsp, hnb, _, _⟩, hre⟩ := ih .elems _ _ _ he
              refine ⟨⟨'[', hd :: tl, rfl, by decide, by decide, by decide,
                fun hm => by cases hm⟩, ?_⟩
              intro f2 t hf ht
              obtain ⟨f3, rfl⟩ : ∃ f3, f2 = f3 + 1 := ⟨f2 - 1, by omega⟩
              have hsk2 : skipSpace (hd :: (tl ++ t)) = hd :: (tl ++ t) :=
                skipSpace_cons _ _ hsp
              have := hre f3 t (by simp only [List.length_cons] at hf ⊢; omega) ht
              simp only [List.cons_append] at this
              simp [scanJSON, hsk2, hnb, this]
      · simp only [ha, if_false] at h
        by_cases hb : c0 = '{'
        · simp only [hb, if_true] at h
          cases hsk : skipSpace t0 with
          | nil => simp [hsk] at h
          | cons c2 t2 =>
            simp only [hsk] at h
            by_cases hc2 : c2 = '}'
            · simp only [hc2, if_true, Option.some.injEq, Prod.mk.injEq] at h
              obtain ⟨rfl, rfl⟩ := h
              refine ⟨⟨'{', ['}'], rfl, by decide, by decide, by decide,
                fun hm => by cases hm⟩, ?_⟩
              intro f2 t hf _
              obtain ⟨f3, rfl⟩ : ∃ f3, f2 = f3 + 1 := ⟨f2 - 1, by omega⟩
              have hsk2 : skipSpace ('}' :: t) = '}' :: t := skipSpace_cons _ _ (by decide)
              simp [scanJSON, hsk2]
            · simp only [hc2, if_false] at h
              cases he : scanJSON f .members (c2 :: t2) with
              | none => simp [he] at h
              | some p =>
                obtain ⟨ce, r2⟩ := p
                simp only [he, Option.map_some', Option.some.injEq, Prod.mk.injEq] at h
                obtain ⟨rfl, rfl⟩ := h
                obtain ⟨⟨hd, tl, rfl, hsp, _, hnb, _⟩, hre⟩ := ih .members _ _ _ he
                refine ⟨⟨'{', hd :: tl, rfl, by decide, by decide, by decide,
                  fun hm => by cases hm⟩, ?_⟩
                intro f2 t hf ht
                obtain ⟨f3, rfl⟩ : ∃ f3, f2 = f3 + 1 := ⟨f2 - 1, by omega⟩
                have hsk2 : skipSpace (hd :: (tl ++ t)) = hd :: (tl ++ t) :=
                  skipSpace_cons _ _ hsp
                have := hre f3 t (by simp only [List.length_cons] at hf ⊢; omega) ht
                simp only [List.cons_append] at this
                simp [scanJSON, hsk2, hnb, this]
        · simp only [hb, if_false] at h
          by_cases h1 : c0 = 't'
          · simp only [h1, if_true] at h
            have := scanWord_eq _ _ _ _ h
            subst this
            refine ⟨⟨'t', _, rfl, by decide, by decide, by decide, fun hm => by cases hm⟩, ?_⟩
            intro f2 t hf _
            obtain ⟨f3, rfl⟩ : ∃ f3, f2 = f3 + 1 := ⟨f2 - 1, by omega⟩
            have := scanWord_rescan "true".data t
            unfold scanJSON
            simp only [List.cons_append] at this ⊢
            simpa using this
          · simp only [h1, if_false] at h
            by_cases h2 : c0 = 'f'
            · simp only [h2, if_true] at h
              have := scanWord_eq _ _ _ _ h
              subst this
              refine ⟨⟨'f', _, rfl, by decide, by decide, by decide, fun hm => by cases hm⟩, ?_⟩
              intro f2 t hf _
              obtain ⟨f3, rfl⟩ : ∃ f3, f2 = f3 + 1 := ⟨f2 - 1, by omega⟩
              have := scanWord_rescan "false".data t
              unfold scanJSON
              simp only [List.cons_append] at this ⊢
              simpa using this
            · simp only [h2, if_false] at h
              by_cases h3 : c0 = 'n'
              · simp only [h3, if_true] at h
                have := scanWord_eq _ _ _ _ h
                subst this
                refine ⟨⟨'n', _, rfl, by decide, by decide, by decide,
                  fun hm => by cases hm⟩, ?_⟩
                intro f2 t hf _
                obtain ⟨f3, rfl⟩ : ∃ f3, f2 = f3 + 1 := ⟨f2 - 1, by omega⟩
                have := scanWord_rescan "null".data t
                unfold scanJSON
                simp only [List.cons_append] at this ⊢
                simpa using this
              · simp only [h3, if_false] at h
                have hnum := fun t ht => scanNumber_rescan _ _ _ h t (numEnd_of_delim t ht)
                obtain ⟨_, d, tl, rfl, hhead, hdd⟩ := hnum [] (fun c hc => by simp at hc)
                simp only [List.head?_cons, Option.some.injEq] at hhead
                subst hhead
                have hsp := digit_not_special c0 hdd
                refine ⟨⟨c0, tl, rfl, hsp.1, hsp.2.1, hsp.2.2, fun hm => by cases hm⟩, ?_⟩
                · intro f2 t hf ht
                  obtain ⟨f3, rfl⟩ : ∃ f3, f2 = f3 + 1 := ⟨f2 - 1, by omega⟩
                  have := (hnum t ht).1
                  simp only [List.cons_append] at this
                  simp only [scanJSON, List.cons_append, hq, ha, hb, h1, h2, h3, if_false, this]

theorem scanJSON_elems_rescan (f : Nat)
    (ih : ∀ (mode : ScanMode) (s c r : List Char), scanJSON f mode s = some (c, r) →
      startsToken mode c ∧
      ∀ (f2 : Nat) (t : List Char), 2 * c.length + 2 ≤ f2 → delim t →
        scanJSON f2 mode (c ++ t) = some (c, t))
    (s c r : List Char) (h : scanJSON (f + 1) .elems s = some (c, r)) :
    startsToken .elems c ∧
      ∀ (f2 : Nat) (t : List Char), 2 * c.length + 2 ≤ f2 → delim t →
        scanJSON f2 .elems (c ++ t) = some (c, t) := by
  unfold scanJSON at h
  cases hv : scanJSON f .value s with
  | none => simp [hv] at h
  | some p =>
    obtain ⟨v, rest⟩ := p
    simp only [hv] at h
    obtain ⟨⟨hd, tl, rfl, hsp, hnb, hnc, _⟩, hre⟩ := ih .value _ _ _ hv
    cases hsk : skipSpace rest with
    | nil => simp [hsk] at h
    | cons c1 t1 =>
      simp only [hsk] at h
      by_cases hc : c1 = ','
      · simp only [hc, if_true] at h
        cases he : scanJSON f .elems (skipSpace t1) with
        | none => simp [he] at h
        | some p2 =>
          obtain ⟨ce, r2⟩ := p2
          simp only [he, Option.map_some', Option.some.injEq, Prod.mk.injEq] at h
          obtain ⟨rfl, rfl⟩ := h
          obtain ⟨⟨hd2, tl2, rfl, hsp2, _, _, _⟩, hre2⟩ := ih .elems _ _ _ he
          refine ⟨⟨hd, _, rfl, hsp, hnb, hnc, fun hm => by cases hm⟩, ?_⟩
          intro f2 t hf ht
          obtain ⟨f3, rfl⟩ : ∃ f3, f2 = f3 + 1 := ⟨f2 - 1, by omega⟩
          simp only [List.length_cons, List.length_append] at hf
          have e1 := hre f3 (',' :: (hd2 :: tl2 ++ t))
            (by simp only [List.length_cons]; omega) (delim_cons_comma _)
          have e2 := hre2 f3 t (by simp only [List.length_cons]; omega) ht
          have hsk1 : skipSpace (',' :: (hd2 :: tl2 ++ t)) = ',' :: (hd2 :: tl2 ++ t) :=
            skipSpace_cons _ _ (by decide)
          have hsk2 : skipSpace (hd2 :: tl2 ++ t) = hd2 :: tl2 ++ t :=
            skipSpace_cons _ _ hsp2
          have ea : (hd :: tl ++ ',' :: hd2 :: tl2) ++ t
              = (hd :: tl) ++ (',' :: (hd2 :: tl2 ++ t)) := by simp
          rw [ea]
          unfold scanJSON
          simp only [e1, hsk1, if_true, hsk2, e2, Option.map_some']
      · simp only [hc, if_false] at h
        by_cases hb : c1 = ']'
        · simp only [hb, if_true, Option.some.injEq, Prod.mk.injEq] at h
          obtain ⟨rfl, rfl⟩ := h
          refine ⟨⟨hd, _, rfl, hsp, hnb, hnc, fun hm => by cases hm⟩, ?_⟩
          intro f2 t hf ht
          obtain ⟨f3, rfl⟩ : ∃ f3, f2 = f3 + 1 := ⟨f2 - 1, by omega⟩
          simp only [List.length_cons, List.length_append, List.length_nil] at hf
          have e1 := hre f3 (']' :: t) (by simp only [List.length_cons]; omega)
            (delim_cons_bracket _)
          have hsk1 : skipSpace (']' :: t) = ']' :: t := skipSpace_cons _ _ (by decide)
          have ea : (hd :: tl ++ [']']) ++ t = (hd :: tl) ++ (']' :: t) := by simp
          have hne : ¬ (']' = ',') := by decide
          rw [ea]
          unfold scanJSON
          simp only [e1, hsk1, hne, if_false, if_true]
        · simp [hb] at h

theorem scanJSON_members_rescan (f : Nat)
    (ih : ∀ (mode : ScanMode) (s c r : List Char), scanJSON f mode s = some (c, r) →
      startsToken mode c ∧
      ∀ (f2 : Nat) (t : List Char), 2 * c.length + 2 ≤ f2 → delim t →
        scanJSON f2 mode (c ++ t) = some (c, t))
    (s c r : List Char) (h : scanJSON (f + 1) .members s = some (c, r)) :
    startsToken .members c ∧
      ∀ (f2 : Nat) (t : List Char), 2 * c.length + 2 ≤ f2 → delim t →
        scanJSON f2 .members (c ++ t) = some (c, t) := by
  unfold scanJSON at h
  cases s with
  | nil => simp at h
  | cons q t0 =>
    simp only [] at h
    by_cases hq : q = '"'
    · simp only [hq, if_true] at h
      cases hs : scanString t0 with
      | none => simp [hs] at h
      | some p =>
        obtain ⟨k, rest⟩ := p
        simp only [hs] at h
        cases hsk : skipSpace rest with
        | nil => simp [hsk] at h
        | cons c1 t2 =>
          simp only [hsk] at h
          by_cases hc : c1 = ':'
          · simp only [hc, if_true] at h
            cases hv : scanJSON f .value (skipSpace t2) with
            | none => simp [hv] at h
            | some p2 =>
              obtain ⟨v, rest3⟩ := p2
              simp only [hv] at h
              obtain ⟨⟨hd, tl, rfl, hsp, _, _, _⟩, hre⟩ := ih .value _ _ _ hv
              cases hsk3 : skipSpace rest3 with
              | nil => simp [hsk3] at h
              | cons c3 t3 =>
                simp only [hsk3] at h
                by_cases hc3 : c3 = ','
                · simp only [hc3, if_true] at h
                  cases hm : scanJSON f .members (skipSpace t3) with
                  | none => simp [hm] at h
                  | some p3 =>
                    obtain ⟨cm, r3⟩ := p3
                    simp only [hm, Option.map_some', Option.some.injEq, Prod.mk.injEq] at h
                    obtain ⟨rfl, rfl⟩ := h
                    obtain ⟨⟨hd2, tl2, rfl, hsp2, _, _, _⟩, hre2⟩ := ih .members _ _ _ hm
                    refine ⟨⟨'"', _, rfl, by decide, by decide, by decide, fun _ => rfl⟩, ?_⟩
                    intro f2 t hf ht
                    obtain ⟨f3, rfl⟩ : ∃ f3, f2 = f3 + 1 := ⟨f2 - 1, by omega⟩
                    simp only [List.length_cons, List.length_append] at hf
                    have e0 := scanString_rescan t0 k rest hs
                      (':' :: (hd :: tl ++ (',' :: (hd2 :: tl2 ++ t))))
                    have e1 := hre f3 (',' :: (hd2 :: tl2 ++ t))
                      (by simp only [List.length_cons]; omega) (delim_cons_comma _)
                    have e2 := hre2 f3 t (by simp only [List.length_cons]; omega) ht
                    have hska : skipSpace (':' :: (hd :: tl ++ (',' :: (hd2 :: tl2 ++ t))))
                        = ':' :: (hd :: tl ++ (',' :: (hd2 :: tl2 ++ t))) :=
                      skipSpace_cons _ _ (by decide)
                    have hskb : skipSpace (hd :: tl ++ (',' :: (hd2 :: tl2 ++ t)))
                        = hd :: tl ++ (',' :: (hd2 :: tl2 ++ t)) :=
                      skipSpace_cons _ _ hsp
                    have hsk1 : skipSpace (',' :: (hd2 :: tl2 ++ t)) = ',' :: (hd2 :: tl2 ++ t) :=
                      skipSpace_cons _ _ (by decide)
                    have hsk2 : skipSpace (hd2 :: tl2 ++ t) = hd2 :: tl2 ++ t :=
                      skipSpace_cons _ _ hsp2
                    have ea : ('"' :: k ++ ':' :: (hd :: tl) ++ ',' :: hd2 :: tl2) ++ t
                        = '"' :: (k ++ (':' :: (hd :: tl ++ (',' :: (hd2 :: tl2 ++ t))))) := by
                      simp
                    rw [ea]
                    unfold scanJSON
                    simp only [if_true, e0, hska, hskb, e1, hsk1, hsk2, e2, Option.map_some']
                · simp only [hc3, if_false] at h
                  by_cases hb : c3 = '}'
                  · simp only [hb, if_true, Option.some.injEq, Prod.mk.injEq] at h
                    obtain ⟨rfl, rfl⟩ := h
                    refine ⟨⟨'"', _, rfl, by decide, by decide, by decide, fun _ => rfl⟩, ?_⟩
                    intro f2 t hf ht
                    obtain ⟨f3, rfl⟩ : ∃ f3, f2 = f3 + 1 := ⟨f2 - 1, by omega⟩
                    simp only [List.length_cons, List.length_append, List.length_nil] at hf
                    have e0 := scanString_rescan t0 k rest hs (':' :: (hd :: tl ++ ('}' :: t)))
                    have e1 := hre f3 ('}' :: t)
                      (by simp only [List.length_cons]; omega) (delim_cons_brace _)
                    have hska : skipSpace (':' :: (hd :: tl ++ ('}' :: t)))
                        = ':' :: (hd :: tl ++ ('}' :: t)) :=
                      skipSpace_cons _ _ (by decide)
                    have hskb : skipSpace (hd :: tl ++ ('}' :: t)) = hd :: tl ++ ('}' :: t) :=
                      skipSpace_cons _ _ hsp
                    have hsk1 : skipSpace ('}' :: t) = '}' :: t := skipSpace_cons _ _ (by decide)
                    have hne : ¬ ('}' = ',') := by decide
                    have ea : ('"' :: k ++ ':' :: (hd :: tl) ++ ['}']) ++ t
                        = '"' :: (k ++ (':' :: (hd :: tl ++ ('}' :: t)))) := by
                      simp
                    rw [ea]
                    unfold scanJSON
                    simp only [if_true, e0, hska, hskb, e1, hsk1, hne, if_false]
                  · simp [hb] at h
          · simp [hc] at h
    · simp [hq] at h

/-- Compacted JSON is read back unchanged: scanning the output of a successful
scan, followed by any text that can follow a value, yields that output again
and stops right after it. -/
theorem scanJSON_rescan (f : Nat) :
    ∀ (mode : ScanMode) (s c r : List Char), scanJSON f mode s = some (c, r) →
      startsToken mode c ∧
      ∀ (f2 : Nat) (t : List Char), 2 * c.length + 2 ≤ f2 → delim t →
        scanJSON f2 mode (c ++ t) = some (c, t) := by
  induction f with
  | zero => intro mode s c r h; simp [scanJSON] at h
  | succ f ih =>
    intro mode s c r h
    cases mode with
    | value => exact scanJSON_value_rescan f ih s c r h
    | elems => exact scanJSON_elems_rescan f ih s c r h
    | members => exact scanJSON_members_rescan f ih s c r h

/-! ## Encoding an `operationMessage` and decoding it again -/

theorem readText_append (a b : List Char) : readText (a ++ b) b = a := by
  simp [readText]

theorem dropLast_append_quote (a : List Char) : (a ++ ['"']).dropLast = a := by
  simp

/-- A string value written by the encoder scans as one value. -/
theorem scanJSON_encodeString (n : Nat) (x : String) (t : List Char) :
    scanJSON (n + 1) .value (encodeString x ++ t)
      = some (encodeString x, t) := by
  have := scanString_encodeBody x.data t
  simp only [encodeString, List.cons_append, List.append_assoc, List.singleton_append,
    List.nil_append]
  unfold scanJSON
  simp [this]

/-- One member of an object, followed by a comma and more members. -/
theorem scanJSON_member_more (n : Nat) (key : String) (v rest t cv cm : List Char)
    (hv : scanJSON n .value (v ++ ',' :: rest) = some (cv, ',' :: rest))
    (hvs : skipSpace (v ++ ',' :: rest) = v ++ ',' :: rest)
    (hrs : skipSpace rest = rest)
    (hm : scanJSON n .members rest = some (cm, t)) :
    ∃ c, scanJSON (n + 1) .members (encodeString key ++ ':' :: (v ++ ',' :: rest)) = some (c, t) := by
  have hk := scanString_encodeBody key.data (':' :: (v ++ ',' :: rest))
  have hs1 : skipSpace (':' :: (v ++ ',' :: rest)) = ':' :: (v ++ ',' :: rest) :=
    skipSpace_cons _ _ (by decide)
  have hs2 : skipSpace (',' :: rest) = ',' :: rest := skipSpace_cons _ _ (by decide)
  simp only [encodeString, List.cons_append, List.append_assoc, List.singleton_append,
    List.nil_append]
  unfold scanJSON
  simp only [if_true, hk, hs1, hvs, hv, hs2, hrs, hm, Option.map_some']
  exact ⟨_, rfl⟩

/-- The last member of an object. -/
theorem scanJSON_member_last (n : Nat) (key : String) (v t cv : List Char)
    (hv : scanJSON n .value (v ++ '}' :: t) = some (cv, '}' :: t))
    (hvs : skipSpace (v ++ '}' :: t) = v ++ '}' :: t) :
    ∃ c, scanJSON (n + 1) .members (encodeString key ++ ':' :: (v ++ '}' :: t)) = some (c, t) := by
  have hk := scanString_encodeBody key.data (':' :: (v ++ '}' :: t))
  have hs1 : skipSpace (':' :: (v ++ '}' :: t)) = ':' :: (v ++ '}' :: t) :=
    skipSpace_cons _ _ (by decide)
  have hs2 : skipSpace ('}' :: t) = '}' :: t := skipSpace_cons _ _ (by decide)
  have hne : ¬ ('}' = ',') := by decide
  simp only [encodeString, List.cons_append, List.append_assoc, List.singleton_append,
    List.nil_append]
  unfold scanJSON
  simp only [if_true, hk, hs1, hvs, hv, hs2, hne, if_false]
  exact ⟨_, rfl⟩

/-- One step of the member loop of the decoder. -/
theorem decodeMembers_step (n : Nat) (key : String) (v t cv : List Char) (c3 : Char)
    (op : operationMessage)
    (hv : scanJSON (scanFuel (v ++ c3 :: t)) .value (v ++ c3 :: t) = some (cv, c3 :: t))
    (hvs : skipSpace (v ++ c3 :: t) = v ++ c3 :: t)
    (hc3 : isSpace c3 = false) :
    decodeMembers (n + 1) (encodeString key ++ ':' :: (v ++ c3 :: t)) op =
      match setField op key v with
      | .error e => .error e
      | .ok op2 => if c3 = ',' then decodeMembers n (skipSpace t) op2 else .ok op2 := by
  have hk := scanString_encodeBody key.data (':' :: (v ++ c3 :: t))
  have hs1 : skipSpace (':' :: (v ++ c3 :: t)) = ':' :: (v ++ c3 :: t) :=
    skipSpace_cons _ _ (by decide)
  have hs2 : skipSpace (c3 :: t) = c3 :: t := skipSpace_cons _ _ hc3
  have hraw : readText (encodeBody key.data ++ '"' :: ':' :: (v ++ c3 :: t))
      (':' :: (v ++ c3 :: t)) = encodeBody key.data ++ ['"'] := by
    have := readText_append (encodeBody key.data ++ ['"']) (':' :: (v ++ c3 :: t))
    simpa using this
  have hraw2 : readText (v ++ c3 :: t) (c3 :: t) = v := readText_append _ _
  have hu := unquote_encodeBody key
  simp only [encodeString, List.cons_append, List.append_assoc, List.singleton_append,
    List.nil_append]
  conv_lhs => unfold decodeMembers
  simp only [hk, hraw, dropLast_append_quote, hu, hs1, hvs, hv, hraw2, hs2]

theorem skipSpace_encodeString (x : String) (t : List Char) :
    skipSpace (encodeString x ++ t) = encodeString x ++ t := by
  simp only [encodeString, List.cons_append]
  exact skipSpace_cons _ _ (by decide)

theorem decodeStringField_encodeString (x old : String) :
    decodeStringField (encodeString x) old = .ok x := by
  simp only [encodeString, decodeStringField, List.cons_append, dropLast_append_quote,
    unquote_encodeBody, if_true]

theorem scanFuel_succ (s : List Char) : scanFuel s = (2 * s.length + 1) + 1 := rfl

/-- The `type` member, which ends the object: it is valid JSON and the decoder
stores the string in `Typ`. -/
theorem type_member (n : Nat) (typ : String) (op : operationMessage) :
    (∃ c, scanJSON (n + 2) .members
        (encodeString "type" ++ ':' :: (encodeString typ ++ ['}'])) = some (c, [])) ∧
    decodeMembers (n + 1) (encodeString "type" ++ ':' :: (encodeString typ ++ ['}'])) op
      = .ok { op with Typ := typ } := by
  constructor
  · exact scanJSON_member_last (n + 1) "type" (encodeString typ) [] _
      (scanJSON_encodeString n typ _) (skipSpace_encodeString typ _)
  · rw [decodeMembers_step n "type" (encodeString typ) [] (encodeString typ) '}' op
      (by rw [scanFuel_succ]; exact scanJSON_encodeString _ typ _)
      (skipSpace_encodeString typ _) (by decide)]
    have h1 : foldEq "payload".data "type".data = false := by decide
    have h2 : foldEq "id".data "type".data = false := by decide
    have h3 : foldEq "type".data "type".data = true := by decide
    have hne : ¬ ('}' = ',') := by decide
    simp only [setField, h1, h2, h3, decodeStringField_encodeString, Except.map, hne, if_false,
      Bool.false_eq_true, if_true]

/-- The `id` member followed by the `type` member. -/
theorem id_type_members (n : Nat) (id typ : String) (op : operationMessage) :
    (∃ c, scanJSON (n + 3) .members
        (encodeString "id" ++ ':' :: (encodeString id ++ ',' ::
          (encodeString "type" ++ ':' :: (encodeString typ ++ ['}'])))) = some (c, [])) ∧
    decodeMembers (n + 2)
        (encodeString "id" ++ ':' :: (encodeString id ++ ',' ::
          (encodeString "type" ++ ':' :: (encodeString typ ++ ['}'])))) op
      = .ok { op with ID := id, Typ := typ } := by
  constructor
  · obtain ⟨c, hc⟩ := (type_member n typ op).1
    exact scanJSON_member_more (n + 2) "id" (encodeString id) _ [] _ c
      (scanJSON_encodeString (n + 1) id _) (skipSpace_encodeString id _)
      (skipSpace_encodeString "type" _) hc
  · rw [decodeMembers_step (n + 1) "id" (encodeString id) _ (encodeString id) ',' op
      (by rw [scanFuel_succ]; exact scanJSON_encodeString _ id _)
      (skipSpace_encodeString id _) (by decide)]
    have h1 : foldEq "payload".data "id".data = false := by decide
    have h2 : foldEq "id".data "id".data = true := by decide
    simp only [setField, h1, h2, decodeStringField_encodeString, Except.map,
      Bool.false_eq_true, if_false, if_true, skipSpace_encodeString]
    rw [(type_member n typ _).2]

theorem string_eq_empty_of_data (s : String) (h : s.data.isEmpty = true) : s = "" := by
  cases s with
  | mk d =>
    simp only [List.isEmpty_iff] at h
    subst h
    rfl

theorem tail_members (n : Nat) (m op : operationMessage) (hop : op.ID = "") :
    (∃ c, scanJSON (n + 3) .members (tailFields m) = some (c, [])) ∧
    decodeMembers (n + 2) (tailFields m) op = .ok { op with ID := m.ID, Typ := m.Typ } ∧
    skipSpace (tailFields m) = tailFields m ∧
    ∃ tl, tailFields m = '"' :: tl := by
  by_cases hid : m.ID.data.isEmpty = true
  · have hid2 := string_eq_empty_of_data _ hid
    have e : tailFields m = encodeString "type" ++ ':' :: (encodeString m.Typ ++ ['}']) := by
      simp [tailFields, hid]
    rw [e]
    refine ⟨(type_member (n + 1) m.Typ op).1, ?_, skipSpace_encodeString _ _, ?_⟩
    · rw [(type_member (n + 1) m.Typ op).2, hid2, ← hop]
    · exact ⟨_, by simp only [encodeString, List.cons_append]; rfl⟩
  · have e : tailFields m = encodeString "id" ++ ':' :: (encodeString m.ID ++ ',' ::
          (encodeString "type" ++ ':' :: (encodeString m.Typ ++ ['}']))) := by
      simp [tailFields, hid]
    rw [e]
    refine ⟨(id_type_members n m.ID m.Typ op).1, (id_type_members n m.ID m.Typ op).2,
      skipSpace_encodeString _ _, ?_⟩
    exact ⟨_, by simp only [encodeString, List.cons_append]; rfl⟩

theorem marshalFields_of_empty (m : operationMessage) : marshalFields [] m = tailFields m := by
  simp [marshalFields, tailFields]

theorem marshalFields_of_nonempty (p : List Char) (m : operationMessage) (hp : p.isEmpty = false) :
    marshalFields p m = encodeString "payload" ++ ':' :: (p ++ ',' :: tailFields m) := by
  simp [marshalFields, tailFields, hp]

/-- The `payload` member followed by the other members. -/
theorem payload_members (n : Nat) (m op : operationMessage) (p : List Char) (hop : op.ID = "")
    (htok : startsToken .value p)
    (hre : ∀ (f2 : Nat) (t : List Char), 2 * p.length + 2 ≤ f2 → delim t →
        scanJSON f2 .value (p ++ t) = some (p, t))
    (hn : 2 * p.length ≤ n) :
    (∃ c, scanJSON (n + 4) .members
        (encodeString "payload" ++ ':' :: (p ++ ',' :: tailFields m)) = some (c, [])) ∧
    decodeMembers (n + 3) (encodeString "payload" ++ ':' :: (p ++ ',' :: tailFields m)) op
      = .ok { Payload := String.mk p, ID := m.ID, Typ := m.Typ } := by
  obtain ⟨hd, tl, rfl, hsp, _, _, _⟩ := htok
  have hsk : skipSpace (hd :: tl ++ ',' :: tailFields m) = hd :: tl ++ ',' :: tailFields m :=
    skipSpace_cons _ _ hsp
  have htail := tail_members n m { op with Payload := String.mk (hd :: tl) } hop
  constructor
  · obtain ⟨c, hc⟩ := htail.1
    exact scanJSON_member_more (n + 3) "payload" (hd :: tl) _ [] _ c
      (hre (n + 3) _ (by omega) (delim_cons_comma _)) hsk htail.2.2.1 hc
  · rw [decodeMembers_step (n + 2) "payload" (hd :: tl) _ (hd :: tl) ',' op
      (hre _ _ (by simp [scanFuel]) (delim_cons_comma _)) hsk (by decide)]
    have h1 : foldEq "payload".data "payload".data = true := by decide
    simp only [setField, h1, if_true, htail.2.2.1]
    rw [htail.2.1]

/-- Decoding an object whose members start right after the brace. -/
theorem Unmarshal_object (tl c : List Char)
    (hscan : scanJSON (2 * (tl.length + 1) + 3) .members ('"' :: tl) = some (c, [])) :
    Unmarshal (String.mk ('{' :: '"' :: tl))
      = decodeMembers (2 * (tl.length + 1) + 4) ('"' :: tl) { Payload := "", ID := "", Typ := "" } := by
  have hs0 : skipSpace ('{' :: '"' :: tl) = '{' :: '"' :: tl := skipSpace_cons _ _ (by decide)
  have hs1 : skipSpace ('"' :: tl) = '"' :: tl := skipSpace_cons _ _ (by decide)
  have hf : scanFuel ('{' :: '"' :: tl) = (2 * (tl.length + 1) + 3) + 1 := by
    simp only [scanFuel, List.length_cons]
    omega
  have hv : scanJSON (scanFuel ('{' :: '"' :: tl)) .value ('{' :: '"' :: tl)
      = some ('{' :: c, []) := by
    rw [hf]
    unfold scanJSON
    have h1 : ¬ ('{' = '"') := by decide
    have h2 : ¬ ('{' = '[') := by decide
    have h3 : ¬ ('"' = '}') := by decide
    simp only [h1, h2, h3, if_false, if_true, hs1, hscan, Option.map_some']
  have hf2 : scanFuel ('{' :: '"' :: tl) = 2 * (tl.length + 1) + 4 := by
    simp only [scanFuel, List.length_cons]
    omega
  rw [hf2] at hv
  have h1 : ¬ ('"' = '}') := by decide
  have he : (skipSpace ([] : List Char)).isEmpty = true := rfl
  simp only [Unmarshal, hs0, hf2, hv, hs1, he, Bool.not_true, Bool.false_eq_true, if_false,
    if_true, h1]

/-- An invalid payload makes `Marshal` fail. -/
theorem Marshal_of_invalid_payload (m : operationMessage) (h : marshalPayload m.Payload = none) :
    Marshal m = .error "json: error calling MarshalJSON for type json.RawMessage" := by
  simp only [Marshal, h]

/-- C5, amended: for every message, whatever its type and id, whose payload
is empty or valid JSON (`marshalPayload` yields the text `p` that `Marshal`
writes for it: nothing for an empty payload, else its compacted form),
encoding succeeds and decoding the encoded text yields the same type, the same
id and the payload `p`.  The payload bytes are unchanged exactly when the
payload already is in compacted form. -/
theorem C5_Marshal_then_Unmarshal (m : operationMessage) (p : List Char)
    (hp : marshalPayload m.Payload = some p) :
    ∃ text, Marshal m = .ok text ∧
      Unmarshal text = .ok { Payload := String.mk p, ID := m.ID, Typ := m.Typ } := by
  refine ⟨String.mk ('{' :: marshalFields p m), by simp only [Marshal, hp], ?_⟩
  by_cases hpe : p.isEmpty = true
  · have hp0 : p = [] := List.isEmpty_iff.mp hpe
    subst hp0
    rw [marshalFields_of_empty]
    obtain ⟨tl, htl⟩ := (tail_members 0 m ⟨"", "", ""⟩ rfl).2.2.2
    have hlen : (tailFields m).length = tl.length + 1 := by rw [htl]; rfl
    obtain ⟨c, hc⟩ := (tail_members (2 * (tl.length + 1)) m ⟨"", "", ""⟩ rfl).1
    have hd := (tail_members (2 * (tl.length + 1) + 2) m ⟨"", "", ""⟩ rfl).2.1
    rw [htl] at hc hd ⊢
    rw [Unmarshal_object tl c hc, hd]
  · have hpe2 : p.isEmpty = false := by simpa using hpe
    rw [marshalFields_of_nonempty p m hpe2]
    have hcomp : compact m.Payload.data = some p := by
      unfold marshalPayload at hp
      by_cases hd : m.Payload.data.isEmpty = true
      · simp only [hd, if_true, Option.some.injEq] at hp
        subst hp
        exact absurd rfl hpe
      · simpa [hd] using hp
    unfold compact at hcomp
    cases hs : scanJSON (scanFuel m.Payload.data) .value (skipSpace m.Payload.data) with
    | none => simp [hs] at hcomp
    | some q =>
      obtain ⟨out, rest⟩ := q
      simp only [hs] at hcomp
      have hout : out = p := by
        split at hcomp
        · simpa using hcomp
        · cases hcomp
      subst hout
      obtain ⟨htok, hre⟩ := scanJSON_rescan _ _ _ _ _ hs
      have hshape : ∃ tl, encodeString "payload" ++ ':' :: (out ++ ',' :: tailFields m)
          = '"' :: tl ∧ out.length ≤ tl.length :=
        ⟨_, by simp only [encodeString, List.cons_append]; rfl, by
          simp only [List.length_append, List.length_cons]; omega⟩
      obtain ⟨tl, htl, hlen⟩ := hshape
      obtain ⟨c, hc⟩ := (payload_members (2 * (tl.length + 1) - 1) m ⟨"", "", ""⟩ out rfl htok hre
        (by omega)).1
      have hd := (payload_members (2 * (tl.length + 1) + 1) m ⟨"", "", ""⟩ out rfl htok hre
        (by omega)).2
      have e1 : 2 * (tl.length + 1) - 1 + 4 = 2 * (tl.length + 1) + 3 := by omega
      rw [htl, e1] at hc
      rw [htl] at hd ⊢
      rw [Unmarshal_object tl c hc, hd]

/-- C5, as stated, fails: the payload `{"a": 1}` comes back as `{"a":1}`.
`Marshal` passes a `json.RawMessage` through `compact`, which drops the space. -/
theorem C5_payload_is_compacted :
    Marshal ⟨"\x7b\"a\": 1\x7d", "1", "data"⟩
      = .ok "\x7b\"payload\":\x7b\"a\":1\x7d,\"id\":\"1\",\"type\":\"data\"\x7d" ∧
    Unmarshal "\x7b\"payload\":\x7b\"a\":1\x7d,\"id\":\"1\",\"type\":\"data\"\x7d"
      = .ok ⟨"\x7b\"a\":1\x7d", "1", "data"⟩ ∧
    "\x7b\"a\":1\x7d" ≠ "\x7b\"a\": 1\x7d" := by
  refine ⟨by rfl, by rfl, by decide⟩

/-- Witness for C5: the payload `{"a": 1}`. -/
theorem C5_witness :
    marshalPayload "\x7b\"a\": 1\x7d" = some "\x7b\"a\":1\x7d".data ∧
    ∃ text, Marshal ⟨"\x7b\"a\": 1\x7d", "1", "data"⟩ = .ok text ∧
      Unmarshal text = .ok ⟨"\x7b\"a\":1\x7d", "1", "data"⟩ :=
  ⟨by rfl, C5_Marshal_then_Unmarshal ⟨"\x7b\"a\": 1\x7d", "1", "data"⟩ "\x7b\"a\":1\x7d".data (by rfl)⟩

/-! ## Fuel is never used up -/

theorem skipSpace_length (s : List Char) : (skipSpace s).length ≤ s.length := by
  unfold skipSpace
  induction s with
  | nil => simp
  | cons a t ih =>
    by_cases ha : isSpace a = true
    · simp only [List.dropWhile, ha, List.length_cons]
      omega
    · simp [List.dropWhile, ha]

theorem stringStep_length (s : List Char) :
    (∀ rest, stringStep s = .close rest → rest.length < s.length) ∧
    (∀ out rest, stringStep s = .unit out rest → rest.length < s.length) := by
  unfold stringStep
  split
  · exact ⟨fun _ h => (by cases h), fun _ _ h => (by cases h)⟩
  · rename_i c t
    split
    · refine ⟨fun rest h => ?_, fun _ _ h => (by cases h)⟩
      simp only [StrStep.close.injEq] at h
      subst h
      simp
    · split
      · split
        · exact ⟨fun _ h => (by cases h), fun _ _ h => (by cases h)⟩
        · rename_i e t2
          split
          · split
            · rename_i a b c2 d t3
              split
              · refine ⟨fun _ h => (by cases h), fun out rest h => ?_⟩
                simp only [StrStep.unit.injEq] at h
                obtain ⟨-, rfl⟩ := h
                simp only [List.length_cons]
                omega
              · exact ⟨fun _ h => (by cases h), fun _ _ h => (by cases h)⟩
            · exact ⟨fun _ h => (by cases h), fun _ _ h => (by cases h)⟩
          · split
            · refine ⟨fun _ h => (by cases h), fun out rest h => ?_⟩
              simp only [StrStep.unit.injEq] at h
              obtain ⟨-, rfl⟩ := h
              simp only [List.length_cons]
              omega
            · exact ⟨fun _ h => (by cases h), fun _ _ h => (by cases h)⟩
      · split
        · exact ⟨fun _ h => (by cases h), fun _ _ h => (by cases h)⟩
        · split
          · refine ⟨fun _ h => (by cases h), fun out rest h => ?_⟩
            simp only [StrStep.unit.injEq] at h
            obtain ⟨-, rfl⟩ := h
            simp
          · split
            · refine ⟨fun _ h => (by cases h), fun out rest h => ?_⟩
              simp only [StrStep.unit.injEq] at h
              obtain ⟨-, rfl⟩ := h
              simp
            · refine ⟨fun _ h => (by cases h), fun out rest h => ?_⟩
              simp only [StrStep.unit.injEq] at h
              obtain ⟨-, rfl⟩ := h
              simp

/-- A string scan that succeeds with some fuel succeeds with any fuel above the
number of characters it reads, with the same result. -/
theorem scanStringLoop_fuel (f : Nat) : ∀ (s b r : List Char),
    scanStringLoop f s = some (b, r) →
    r.length < s.length ∧
      ∀ f2, s.length - r.length ≤ f2 → scanStringLoop f2 s = some (b, r) := by
  induction f with
  | zero => intro s b r h; simp [scanStringLoop] at h
  | succ f ih =>
    intro s b r h
    unfold scanStringLoop at h
    cases hs : stringStep s with
    | bad => simp [hs] at h
    | close rest =>
      simp only [hs, Option.some.injEq, Prod.mk.injEq] at h
      obtain ⟨rfl, rfl⟩ := h
      have hl := (stringStep_length s).1 _ hs
      refine ⟨hl, fun f2 hf => ?_⟩
      obtain ⟨f3, rfl⟩ : ∃ f3, f2 = f3 + 1 := ⟨f2 - 1, by omega⟩
      simp [scanStringLoop, hs]
    | unit out rest =>
      simp only [hs] at h
      cases hr : scanStringLoop f rest with
      | none => simp [hr] at h
      | some p =>
        obtain ⟨body, rest2⟩ := p
        simp only [hr, Option.some.injEq, Prod.mk.injEq] at h
        obtain ⟨rfl, rfl⟩ := h
        have hl := (stringStep_length s).2 _ _ hs
        obtain ⟨hl2, hre⟩ := ih rest body rest2 hr
        refine ⟨by omega, fun f2 hf => ?_⟩
        obtain ⟨f3, rfl⟩ : ∃ f3, f2 = f3 + 1 := ⟨f2 - 1, by omega⟩
        have := hre f3 (by omega)
        simp [scanStringLoop, hs, this]

theorem scanString_length (s b r : List Char) (h : scanString s = some (b, r)) :
    r.length < s.length :=
  (scanStringLoop_fuel _ s b r h).1

/-- The fuel `scanString` passes is enough: a scan that succeeds with any fuel
is the one `scanString` finds. -/
theorem scanString_complete (f : Nat) (s b r : List Char)
    (h : scanStringLoop f s = some (b, r)) : scanString s = some (b, r) :=
  (scanStringLoop_fuel f s b r h).2 _ (by omega)

theorem takeWhile_dropWhile_length (p : Char → Bool) (s : List Char) :
    (s.takeWhile p).length + (s.dropWhile p).length = s.length := by
  have := congrArg List.length (List.takeWhile_append_dropWhile p s)
  rw [List.length_append] at this
  exact this

theorem scanDigits_length (s ds r : List Char) (h : scanDigits s = some (ds, r)) :
    r.length < s.length := by
  unfold scanDigits at h
  have hl := takeWhile_dropWhile_length isDecimal s
  split at h
  · cases h
  · rename_i d tl hd
    simp only [Option.some.injEq, Prod.mk.injEq] at h
    obtain ⟨-, rfl⟩ := h
    rw [hd] at hl
    simp only [List.length_cons] at hl
    omega

theorem scanInt_length (s i r : List Char) (h : scanInt s = some (i, r)) :
    r.length < s.length := by
  unfold scanInt at h
  split at h
  · rename_i c tl
    have hl := takeWhile_dropWhile_length isDecimal tl
    split at h
    · simp only [Option.some.injEq, Prod.mk.injEq] at h
      obtain ⟨-, rfl⟩ := h
      simp
    · split at h
      · simp only [Option.some.injEq, Prod.mk.injEq] at h
        obtain ⟨-, rfl⟩ := h
        simp only [List.length_cons]
        omega
      · cases h
  · cases h

theorem scanFraction_length (s f r : List Char) (h : scanFraction s = some (f, r)) :
    r.length ≤ s.length := by
  unfold scanFraction at h
  split at h
  · rename_i c tl
    split at h
    · cases hd : scanDigits tl with
      | none => simp [hd] at h
      | some p =>
        obtain ⟨ds, r2⟩ := p
        simp only [hd, Option.map_some', Option.some.injEq, Prod.mk.injEq] at h
        obtain ⟨-, rfl⟩ := h
        have := scanDigits_length _ _ _ hd
        simp only [List.length_cons]
        omega
    · simp only [Option.some.injEq, Prod.mk.injEq] at h
      obtain ⟨-, rfl⟩ := h
      exact le_refl _
  · simp only [Option.some.injEq, Prod.mk.injEq] at h
    obtain ⟨-, rfl⟩ := h
    exact le_refl _

theorem scanExponent_length (s e r : List Char) (h : scanExponent s = some (e, r)) :
    r.length ≤ s.length := by
  unfold scanExponent at h
  split at h
  · rename_i c tl
    split at h
    · split at h
      · rename_i sg t2
        split at h
        · cases hd : scanDigits t2 with
          | none => simp [hd] at h
          | some p =>
            obtain ⟨ds, r2⟩ := p
            simp only [hd, Option.map_some', Option.some.injEq, Prod.mk.injEq] at h
            obtain ⟨-, rfl⟩ := h
            have := scanDigits_length _ _ _ hd
            simp only [List.length_cons]
            omega
        · cases hd : scanDigits (sg :: t2) with
          | none => simp [hd] at h
          | some p =>
            obtain ⟨ds, r2⟩ := p
            simp only [hd, Option.map_some', Option.some.injEq, Prod.mk.injEq] at h
            obtain ⟨-, rfl⟩ := h
            have := scanDigits_length _ _ _ hd
            simp only [List.length_cons] at this ⊢
            omega
      · cases h
    · simp only [Option.some.injEq, Prod.mk.injEq] at h
      obtain ⟨-, rfl⟩ := h
      exact le_refl _
  · simp only [Option.some.injEq, Prod.mk.injEq] at h
    obtain ⟨-, rfl⟩ := h
    exact le_refl _

theorem scanNumber_length (s n r : List Char) (h : scanNumber s = some (n, r)) :
    r.length < s.length := by
  unfold scanNumber at h
  cases hi : scanInt (match s with
      | c :: t => if c = '-' then (['-'], t) else ([], s)
      | [] => ([], s)).2 with
  | none => simp [hi] at h
  | some pi =>
    obtain ⟨i, s2⟩ := pi
    simp only [hi] at h
    cases hf : scanFraction s2 with
    | none => simp [hf] at h
    | some pf =>
      obtain ⟨f, s3⟩ := pf
      simp only [hf] at h
      cases he : scanExponent s3 with
      | none => simp [he] at h
      | some pe =>
        obtain ⟨e, s4⟩ := pe
        simp only [he, Option.some.injEq, Prod.mk.injEq] at h
        obtain ⟨-, rfl⟩ := h
        have h1 := scanInt_length _ _ _ hi
        have h2 := scanFraction_length _ _ _ hf
        have h3 := scanExponent_length _ _ _ he
        have h0 : (match s with
            | c :: t => if c = '-' then (['-'], t) else ([], s)
            | [] => ([], s)).2.length ≤ s.length := by
          cases s with
          | nil => simp
          | cons c t =>
            by_cases hc : c = '-'
            · simp [hc]
            · simp [hc]
        omega

theorem scanWord_length (w s out r : List Char) (hw : 0 < w.length)
    (h : scanWord w s = some (out, r)) : r.length < s.length := by
  unfold scanWord at h
  split at h
  · rename_i ht
    simp only [Option.some.injEq, Prod.mk.injEq] at h
    obtain ⟨-, rfl⟩ := h
    have := congrArg List.length ht
    simp only [List.length_take, List.length_drop] at this ⊢
    omega
  · cases h

theorem skipSpace_cons_length (s t : List Char) (c : Char) (h : skipSpace s = c :: t) :
    t.length + 1 ≤ s.length := by
  have := skipSpace_length s
  rw [h] at this
  simpa using this

theorem scanJSON_value_fuel (f : Nat)
    (ih : ∀ (mode : ScanMode) (s c r : List Char), scanJSON f mode s = some (c, r) →
      r.length < s.length ∧
      ∀ f2, scanNeed mode (s.length - r.length) ≤ f2 → scanJSON f2 mode s = some (c, r))
    (s c r : List Char) (h : scanJSON (f + 1) .value s = some (c, r)) :
    r.length < s.length ∧
      ∀ f2, scanNeed .value (s.length - r.length) ≤ f2 → scanJSON f2 .value s = some (c, r) := by
  have key : ∀ f2, r.length < s.length → scanNeed .value (s.length - r.length) ≤ f2 →
      ∃ f3, f2 = f3 + 1 ∧ 2 * (s.length - r.length) ≤ f3 + 1 := by
    intro f2 hl hf
    simp only [scanNeed] at hf
    exact ⟨f2 - 1, by omega, by omega⟩
  unfold scanJSON at h
  cases s with
  | nil => simp at h
  | cons c0 t0 =>
    simp only [] at h
    by_cases hq : c0 = '"'
    · simp only [hq, if_true] at h
      cases hs : scanString t0 with
      | none => simp [hs] at h
      | some p =>
        obtain ⟨b, r2⟩ := p
        simp only [hs, Option.map_some', Option.some.injEq, Prod.mk.injEq] at h
        obtain ⟨rfl, rfl⟩ := h
        have hl := scanString_length _ _ _ hs
        have hl2 : r2.length < (c0 :: t0).length := by simp only [List.length_cons]; omega
        refine ⟨hl2, fun f2 hf => ?_⟩
        obtain ⟨f3, rfl, -⟩ := key f2 hl2 hf
        simp [scanJSON, hq, hs]
    · simp only [hq, if_false] at h
      by_cases ha : c0 = '['
      · simp only [ha, if_true] at h
        cases hsk : skipSpace t0 with
        | nil => simp [hsk] at h
        | cons c2 t2 =>
          simp only [hsk] at h
          have hsl := skipSpace_cons_length _ _ _ hsk
          by_cases hc2 : c2 = ']'
          · simp only [hc2, if_true, Option.some.injEq, Prod.mk.injEq] at h
            obtain ⟨rfl, rfl⟩ := h
            have hl2 : t2.length < (c0 :: t0).length := by simp only [List.length_cons]; omega
            refine ⟨hl2, fun f2 hf => ?_⟩
            obtain ⟨f3, rfl, -⟩ := key f2 hl2 hf
            simp [scanJSON, ha, hsk, hc2]
          · simp only [hc2, if_false] at h
            cases he : scanJSON f .elems (c2 :: t2) with
            | none => simp [he] at h
            | some p =>
              obtain ⟨ce, r2⟩ := p
              simp only [he, Option.map_some', Option.some.injEq, Prod.mk.injEq] at h
              obtain ⟨rfl, rfl⟩ := h
              obtain ⟨hl, hre⟩ := ih .elems _ _ _ he
              simp only [List.length_cons] at hl
              have hl2 : r2.length < (c0 :: t0).length := by simp only [List.length_cons]; omega
              refine ⟨hl2, fun f2 hf => ?_⟩
              obtain ⟨f3, rfl, hf3⟩ := key f2 hl2 hf
              have := hre f3 (by simp only [scanNeed, List.length_cons] at hf3 ⊢; omega)
              simp [scanJSON, ha, hsk, hc2, this]
      · simp only [ha, if_false] at h
        by_cases hb : c0 = '{'
        · simp only [hb, if_true] at h
          cases hsk : skipSpace t0 with
          | nil => simp [hsk] at h
          | cons c2 t2 =>
            simp only [hsk] at h
            have hsl := skipSpace_cons_length _ _ _ hsk
            by_cases hc2 : c2 = '}'
            · simp only [hc2, if_true, Option.some.injEq, Prod.mk.injEq] at h
              obtain ⟨rfl, rfl⟩ := h
              have hl2 : t2.length < (c0 :: t0).length := by simp only [List.length_cons]; omega
              refine ⟨hl2, fun f2 hf => ?_⟩
              obtain ⟨f3, rfl, -⟩ := key f2 hl2 hf
              simp [scanJSON, hb, hsk, hc2]
            · simp only [hc2, if_false] at h
              cases he : scanJSON f .members (c2 :: t2) with
              | none => simp [he] at h
              | some p =>
                obtain ⟨ce, r2⟩ := p
                simp only [he, Option.map_some', Option.some.injEq, Prod.mk.injEq] at h
                obtain ⟨rfl, rfl⟩ := h
                obtain ⟨hl, hre⟩ := ih .members _ _ _ he
                simp only [List.length_cons] at hl
                have hl2 : r2.length < (c0 :: t0).length := by
                  simp only [List.length_cons]; omega
                refine ⟨hl2, fun f2 hf => ?_⟩
                obtain ⟨f3, rfl, hf3⟩ := key f2 hl2 hf
                have := hre f3 (by simp only [scanNeed, List.length_cons] at hf3 ⊢; omega)
                simp [scanJSON, hb, hsk, hc2, this]
        · simp only [hb, if_false] at h
          by_cases h1 : c0 = 't'
          · simp only [h1, if_true] at h
            have hl2 := scanWord_length _ _ _ _ (by decide) h
            refine ⟨by simpa [h1] using hl2, fun f2 hf => ?_⟩
            obtain ⟨f3, rfl, -⟩ := key f2 (by simpa [h1] using hl2) hf
            simpa [scanJSON, h1] using h
          · simp only [h1, if_false] at h
            by_cases h2 : c0 = 'f'
            · simp only [h2, if_true] at h
              have hl2 := scanWord_length _ _ _ _ (by decide) h
              refine ⟨by simpa [h2] using hl2, fun f2 hf => ?_⟩
              obtain ⟨f3, rfl, -⟩ := key f2 (by simpa [h2] using hl2) hf
              simpa [scanJSON, h2] using h
            · simp only [h2, if_false] at h
              by_cases h3 : c0 = 'n'
              · simp only [h3, if_true] at h
                have hl2 := scanWord_length _ _ _ _ (by decide) h
                refine ⟨by simpa [h3] using hl2, fun f2 hf => ?_⟩
                obtain ⟨f3, rfl, -⟩ := key f2 (by simpa [h3] using hl2) hf
                simpa [scanJSON, h3] using h
              · simp only [h3, if_false] at h
                have hl2 := scanNumber_length _ _ _ h
                refine ⟨hl2, fun f2 hf => ?_⟩
                obtain ⟨f3, rfl, -⟩ := key f2 hl2 hf
                simp only [scanJSON, hq, ha, hb, h1, h2, h3, if_false, h]

theorem scanJSON_elems_fuel (f : Nat)
    (ih : ∀ (mode : ScanMode) (s c r : List Char), scanJSON f mode s = some (c, r) →
      r.length < s.length ∧
      ∀ f2, scanNeed mode (s.length - r.length) ≤ f2 → scanJSON f2 mode s = some (c, r))
    (s c r : List Char) (h : scanJSON (f + 1) .elems s = some (c, r)) :
    r.length < s.length ∧
      ∀ f2, scanNeed .elems (s.length - r.length) ≤ f2 → scanJSON f2 .elems s = some (c, r) := by
  unfold scanJSON at h
  cases hv : scanJSON f .value s with
  | none => simp [hv] at h
  | some p =>
    obtain ⟨v, rest⟩ := p
    simp only [hv] at h
    obtain ⟨hlv, hrev⟩ := ih .value _ _ _ hv
    cases hsk : skipSpace rest with
    | nil => simp [hsk] at h
    | cons c1 t1 =>
      simp only [hsk] at h
      have hsl := skipSpace_cons_length _ _ _ hsk
      by_cases hc : c1 = ','
      · simp only [hc, if_true] at h
        cases he : scanJSON f .elems (skipSpace t1) with
        | none => simp [he] at h
        | some p2 =>
          obtain ⟨ce, r2⟩ := p2
          simp only [he, Option.map_some', Option.some.injEq, Prod.mk.injEq] at h
          obtain ⟨rfl, rfl⟩ := h
          obtain ⟨hle, hree⟩ := ih .elems _ _ _ he
          have hs2 := skipSpace_length t1
          refine ⟨by omega, fun f2 hf => ?_⟩
          simp only [scanNeed] at hf
          obtain ⟨f3, rfl⟩ : ∃ f3, f2 = f3 + 1 := ⟨f2 - 1, by omega⟩
          have e1 := hrev f3 (by simp only [scanNeed]; omega)
          have e2 := hree f3 (by simp only [scanNeed]; omega)
          simp [scanJSON, e1, hsk, hc, e2]
      · simp only [hc, if_false] at h
        by_cases hb : c1 = ']'
        · simp only [hb, if_true, Option.some.injEq, Prod.mk.injEq] at h
          obtain ⟨rfl, rfl⟩ := h
          refine ⟨by omega, fun f2 hf => ?_⟩
          simp only [scanNeed] at hf
          obtain ⟨f3, rfl⟩ : ∃ f3, f2 = f3 + 1 := ⟨f2 - 1, by omega⟩
          have e1 := hrev f3 (by simp only [scanNeed]; omega)
          simp [scanJSON, e1, hsk, hb]
        · simp [hb] at h

theorem scanJSON_members_fuel (f : Nat)
    (ih : ∀ (mode : ScanMode) (s c r : List Char), scanJSON f mode s = some (c, r) →
      r.length < s.length ∧
      ∀ f2, scanNeed mode (s.length - r.length) ≤ f2 → scanJSON f2 mode s = some (c, r))
    (s c r : List Char) (h : scanJSON (f + 1) .members s = some (c, r)) :
    r.length < s.length ∧
      ∀ f2, scanNeed .members (s.length - r.length) ≤ f2 →
        scanJSON f2 .members s = some (c, r) := by
  unfold scanJSON at h
  cases s with
  | nil => simp at h
  | cons q t0 =>
    simp only [] at h
    by_cases hq : q = '"'
    · simp only [hq, if_true] at h
      cases hs : scanString t0 with
      | none => simp [hs] at h
      | some p =>
        obtain ⟨k, rest⟩ := p
        simp only [hs] at h
        have hls := scanString_length _ _ _ hs
        cases hsk : skipSpace rest with
        | nil => simp [hsk] at h
        | cons c1 t2 =>
          simp only [hsk] at h
          have hsl := skipSpace_cons_length _ _ _ hsk
          by_cases hc : c1 = ':'
          · simp only [hc, if_true] at h
            cases hv : scanJSON f .value (skipSpace t2) with
            | none => simp [hv] at h
            | some p2 =>
              obtain ⟨v, rest3⟩ := p2
              simp only [hv] at h
              obtain ⟨hlv, hrev⟩ := ih .value _ _ _ hv
              have hs2 := skipSpace_length t2
              cases hsk3 : skipSpace rest3 with
              | nil => simp [hsk3] at h
              | cons c3 t3 =>
                simp only [hsk3] at h
                have hsl3 := skipSpace_cons_length _ _ _ hsk3
                by_cases hc3 : c3 = ','
                · simp only [hc3, if_true] at h
                  cases hm : scanJSON f .members (skipSpace t3) with
                  | none => simp [hm] at h
                  | some p3 =>
                    obtain ⟨cm, r3⟩ := p3
                    simp only [hm, Option.map_some', Option.some.injEq, Prod.mk.injEq] at h
                    obtain ⟨rfl, rfl⟩ := h
                    obtain ⟨hlm, hrem⟩ := ih .members _ _ _ hm
                    have hs4 := skipSpace_length t3
                    refine ⟨by simp only [List.length_cons]; omega, fun f2 hf => ?_⟩
                    simp only [scanNeed, List.length_cons] at hf
                    obtain ⟨f3, rfl⟩ : ∃ f3, f2 = f3 + 1 := ⟨f2 - 1, by omega⟩
                    have e1 := hrev f3 (by simp only [scanNeed]; omega)
                    have e2 := hrem f3 (by simp only [scanNeed]; omega)
                    simp [scanJSON, hq, hs, hsk, hc, e1, hsk3, hc3, e2]
                · simp only [hc3, if_false] at h
                  by_cases hb : c3 = '}'
                  · simp only [hb, if_true, Option.some.injEq, Prod.mk.injEq] at h
                    obtain ⟨rfl, rfl⟩ := h
                    refine ⟨by simp only [List.length_cons]; omega, fun f2 hf => ?_⟩
                    simp only [scanNeed, List.length_cons] at hf
                    obtain ⟨f3, rfl⟩ : ∃ f3, f2 = f3 + 1 := ⟨f2 - 1, by omega⟩
                    have e1 := hrev f3 (by simp only [scanNeed]; omega)
                    simp [scanJSON, hq, hs, hsk, hc, e1, hsk3, hb]
                  · simp [hb] at h
          · simp [hc] at h
    · simp [hq] at h

/-- A descent that succeeds with some fuel succeeds, with the same result, with
any fuel above a bound linear in the number of characters it reads. -/
theorem scanJSON_fuel (f : Nat) :
    ∀ (mode : ScanMode) (s c r : List Char), scanJSON f mode s = some (c, r) →
      r.length < s.length ∧
      ∀ f2, scanNeed mode (s.length - r.length) ≤ f2 → scanJSON f2 mode s = some (c, r) := by
  induction f with
  | zero => intro mode s c r h; simp [scanJSON] at h
  | succ f ih =>
    intro mode s c r h
    cases mode with
    | value => exact scanJSON_value_fuel f ih s c r h
    | elems => exact scanJSON_elems_fuel f ih s c r h
    | members => exact scanJSON_members_fuel f ih s c r h

/-- The fuel used by `compact` and by the decoder is never used up: a descent
that succeeds with any fuel succeeds with `scanFuel`, with the same result. -/
theorem scanJSON_complete (f : Nat) (mode : ScanMode) (s c r : List Char)
    (h : scanJSON f mode s = some (c, r)) : scanJSON (scanFuel s) mode s = some (c, r) := by
  obtain ⟨hl, hre⟩ := scanJSON_fuel f mode s c r h
  apply hre
  cases mode <;> simp only [scanNeed, scanFuel] <;> omega

/-- The function `compact` accepts every text that the descent accepts with any
amount of fuel. -/
theorem compact_complete (f : Nat) (src out rest : List Char)
    (h : scanJSON f .value (skipSpace src) = some (out, rest))
    (hrest : skipSpace rest = []) : compact src = some out := by
  obtain ⟨hl, hre⟩ := scanJSON_fuel f .value _ out rest h
  have hs := skipSpace_length src
  have := hre (scanFuel src) (by simp only [scanNeed, scanFuel]; omega)
  simp [compact, this, hrest]

/-! ## The format loop never runs out of fuel -/

theorem parsenumLoop_length (s : List Char) : ∀ (num : Nat) (isnum : Bool),
    (parsenumLoop s num isnum).2.2.length ≤ s.length := by
  induction s with
  | nil => intro num isnum; simp [parsenumLoop]
  | cons c cs ih =>
    intro num isnum
    unfold parsenumLoop
    split
    · split
      · simp
      · have := ih (num * 10 + (c.toNat - '0'.toNat)) true
        simp only [List.length_cons]
        omega
    · simp

theorem skipFlags_length (s : List Char) : (skipFlags s).length ≤ s.length := by
  induction s with
  | nil => simp [skipFlags]
  | cons c cs ih =>
    unfold skipFlags
    split
    · simp only [List.length_cons]; omega
    · simp

theorem argNumber_length (s : List Char) (good : Bool) :
    (argNumber s good).1.length ≤ s.length := by
  unfold argNumber
  split
  · simp only [List.length_drop]
    omega
  · simp

theorem parseWidth_length (s : List Char) (a g : Bool) :
    (parseWidth s a g).2.1.length ≤ s.length := by
  unfold parseWidth
  split
  · simp
  · exact parsenumLoop_length s 0 false

theorem parsePrecision_length (s : List Char) (a g : Bool) :
    (parsePrecision s a g).2.1.length ≤ s.length := by
  unfold parsePrecision
  split
  · rename_i d c rest
    split
    · have h1 := argNumber_length (c :: rest) (if a = true then false else g)
      rcases hq : argNumber (c :: rest) (if a = true then false else g) with ⟨s2, a2, g2⟩
      rw [hq] at h1
      simp only [List.length_cons] at h1 ⊢
      cases s2 with
      | nil => simp
      | cons x s3 =>
        simp only [List.length_cons] at h1
        simp only []
        split
        · simp only []
          omega
        · have h2 := parsenumLoop_length (x :: s3) 0 false
          simp only [parsenum, List.length_cons] at h2 ⊢
          omega
    · simp
  · simp

theorem processVerb_length (s : List Char) : (processVerb s).2.1.length ≤ s.length := by
  have h1 := skipFlags_length s
  have h2 := argNumber_length (skipFlags s) true
  rcases hq2 : argNumber (skipFlags s) true with ⟨s2, a2, g2⟩
  rw [hq2] at h2
  have h3 := parseWidth_length s2 a2 g2
  rcases hq3 : parseWidth s2 a2 g2 with ⟨o3, s3, a3, g3⟩
  rw [hq3] at h3
  have h4 := parsePrecision_length s3 a3 g3
  rcases hq4 : parsePrecision s3 a3 g3 with ⟨o4, s4, a4, g4⟩
  rw [hq4] at h4
  simp only [] at h2 h3 h4
  have h5 : (if a4 = true then (s4, a4, g4) else argNumber s4 g4).1.length ≤ s4.length := by
    split
    · exact le_refl _
    · exact argNumber_length s4 g4
  rcases hq5 : (if a4 = true then (s4, a4, g4) else argNumber s4 g4) with ⟨s5, a5, g5⟩
  rw [hq5] at h5
  simp only [] at h5
  unfold processVerb
  simp only [hq2, hq3, hq4, hq5]
  cases s5 with
  | nil => simp
  | cons verb s6 =>
    simp only [List.length_cons] at h5
    simp only []
    split
    · simp only []; omega
    · split
      · simp only []; omega
      · simp only []; omega

theorem dropWhile_length_le (p : Char → Bool) (s : List Char) :
    (s.dropWhile p).length ≤ s.length := by
  have := takeWhile_dropWhile_length p s
  omega

/-- The output of the format loop does not depend on the fuel once there is
more fuel than characters: `Sprintf0` never stops for lack of fuel. -/
theorem doPrintf_fuel (n : Nat) : ∀ (s : List Char) (f1 f2 : Nat),
    s.length ≤ n → s.length + 1 ≤ f1 → s.length + 1 ≤ f2 → doPrintf f1 s = doPrintf f2 s := by
  induction n with
  | zero =>
    intro s f1 f2 hn h1 h2
    have hs : s = [] := List.length_eq_zero.mp (by omega)
    subst hs
    obtain ⟨g1, rfl⟩ : ∃ g1, f1 = g1 + 1 := ⟨f1 - 1, by omega⟩
    obtain ⟨g2, rfl⟩ : ∃ g2, f2 = g2 + 1 := ⟨f2 - 1, by omega⟩
    simp [doPrintf]
  | succ n ih =>
    intro s f1 f2 hn h1 h2
    obtain ⟨g1, rfl⟩ : ∃ g1, f1 = g1 + 1 := ⟨f1 - 1, by omega⟩
    obtain ⟨g2, rfl⟩ : ∃ g2, f2 = g2 + 1 := ⟨f2 - 1, by omega⟩
    unfold doPrintf
    have hd := dropWhile_length_le (fun c => decide (c ≠ '%')) s
    cases hq : s.dropWhile (fun c => decide (c ≠ '%')) with
    | nil => simp
    | cons pc after =>
      rw [hq] at hd
      simp only [List.length_cons] at hd
      have hp := processVerb_length after
      rcases hv : processVerb after with ⟨out, rest, stop⟩
      rw [hv] at hp
      simp only [] at hp
      simp only [hv]
      cases stop with
      | true => simp
      | false =>
        have := ih rest g1 g2 (by omega) (by omega) (by omega)
        simp [this]

theorem Sprintf0_fuel (s : String) (f : Nat) (hf : s.data.length + 1 ≤ f) :
    String.mk (doPrintf f s.data) = Sprintf0 s := by
  unfold Sprintf0
  rw [doPrintf_fuel s.data.length s.data f (s.data.length + 1) (le_refl _) hf (le_refl _)]

theorem unquoteStep_length (s rest : List Char) (x : Char)
    (h : unquoteStep s = some (x, rest)) : rest.length < s.length := by
  unfold unquoteStep at h
  split at h
  · cases h
  · rename_i c t
    split at h
    · split at h
      · cases h
      · rename_i e t2
        split at h
        · split at h
          · rename_i a b c2 d t3
            split at h
            · cases h
            · rename_i r hr
              split at h
              · split at h
                · rename_i b1 u1 a1 b2 c3 d1 t4
                  split at h
                  · split at h
                    · simp only [Option.some.injEq, Prod.mk.injEq] at h
                      obtain ⟨-, rfl⟩ := h
                      simp only [List.length_cons]
                      omega
                    · simp only [Option.some.injEq, Prod.mk.injEq] at h
                      obtain ⟨-, rfl⟩ := h
                      simp only [List.length_cons]
                      omega
                  · simp only [Option.some.injEq, Prod.mk.injEq] at h
                    obtain ⟨-, rfl⟩ := h
                    simp only [List.length_cons]
                    omega
                · simp only [Option.some.injEq, Prod.mk.injEq] at h
                  obtain ⟨-, rfl⟩ := h
                  simp only [List.length_cons]
                  omega
              · simp only [Option.some.injEq, Prod.mk.injEq] at h
                obtain ⟨-, rfl⟩ := h
                simp only [List.length_cons]
                omega
          · cases h
        · have hl : t2.length < (c :: e :: t2).length := by
            simp only [List.length_cons]; omega
          split at h
          · simp only [Option.some.injEq, Prod.mk.injEq] at h
            obtain ⟨-, rfl⟩ := h
            exact hl
          · split at h
            · simp only [Option.some.injEq, Prod.mk.injEq] at h
              obtain ⟨-, rfl⟩ := h
              exact hl
            · split at h
              · simp only [Option.some.injEq, Prod.mk.injEq] at h
                obtain ⟨-, rfl⟩ := h
                exact hl
              · split at h
                · simp only [Option.some.injEq, Prod.mk.injEq] at h
                  obtain ⟨-, rfl⟩ := h
                  exact hl
                · split at h
                  · simp only [Option.some.injEq, Prod.mk.injEq] at h
                    obtain ⟨-, rfl⟩ := h
                    exact hl
                  · split at h
                    · simp only [Option.some.injEq, Prod.mk.injEq] at h
                      obtain ⟨-, rfl⟩ := h
                      exact hl
                    · cases h
    · split at h
      · cases h
      · simp only [Option.some.injEq, Prod.mk.injEq] at h
        obtain ⟨-, rfl⟩ := h
        simp

/-- The loop of `unquote` gives the same result with any fuel that covers the
text: `unquote` never stops for lack of fuel. -/
theorem unquoteLoop_fuel (n : Nat) : ∀ (s : List Char) (f1 f2 : Nat),
    s.length ≤ n → s.length ≤ f1 → s.length ≤ f2 → unquoteLoop f1 s = unquoteLoop f2 s := by
  induction n with
  | zero =>
    intro s f1 f2 hn _ _
    have hs : s = [] := List.length_eq_zero.mp (by omega)
    subst hs
    cases f1 <;> cases f2 <;> rfl
  | succ n ih =>
    intro s f1 f2 hn h1 h2
    cases s with
    | nil => cases f1 <;> cases f2 <;> rfl
    | cons c t =>
      simp only [List.length_cons] at hn h1 h2
      obtain ⟨g1, rfl⟩ : ∃ g1, f1 = g1 + 1 := ⟨f1 - 1, by omega⟩
      obtain ⟨g2, rfl⟩ : ∃ g2, f2 = g2 + 1 := ⟨f2 - 1, by omega⟩
      simp only [unquoteLoop]
      cases hu : unquoteStep (c :: t) with
      | none => rfl
      | some p =>
        obtain ⟨x, rest⟩ := p
        have hl := unquoteStep_length _ _ _ hu
        simp only [List.length_cons] at hl
        simp only []
        rw [ih rest g1 g2 (by omega) (by omega) (by omega)]

/-- The member loop of the decoder gives the same result with any fuel above
the length of the text it is given. -/
theorem decodeMembers_fuel (n : Nat) : ∀ (s : List Char) (op : operationMessage) (f1 f2 : Nat),
    s.length ≤ n → s.length + 1 ≤ f1 → s.length + 1 ≤ f2 →
    decodeMembers f1 s op = decodeMembers f2 s op := by
  induction n with
  | zero =>
    intro s op f1 f2 hn h1 h2
    have hs : s = [] := List.length_eq_zero.mp (by omega)
    subst hs
    obtain ⟨g1, rfl⟩ : ∃ g1, f1 = g1 + 1 := ⟨f1 - 1, by omega⟩
    obtain ⟨g2, rfl⟩ : ∃ g2, f2 = g2 + 1 := ⟨f2 - 1, by omega⟩
    simp [decodeMembers]
  | succ n ih =>
    intro s op f1 f2 hn h1 h2
    obtain ⟨g1, rfl⟩ : ∃ g1, f1 = g1 + 1 := ⟨f1 - 1, by omega⟩
    obtain ⟨g2, rfl⟩ : ∃ g2, f2 = g2 + 1 := ⟨f2 - 1, by omega⟩
    cases s with
    | nil => simp [decodeMembers]
    | cons q t =>
      simp only [List.length_cons] at hn h1 h2
      simp only [decodeMembers]
      cases hs : scanString t with
      | none => rfl
      | some p =>
        obtain ⟨k, rest⟩ := p
        have hl1 := scanString_length _ _ _ hs
        simp only []
        cases unquote (readText t rest).dropLast with
        | none => rfl
        | some key =>
          simp only []
          cases hsk : skipSpace rest with
          | nil => rfl
          | cons c1 t2 =>
            have hl2 := skipSpace_cons_length _ _ _ hsk
            simp only []
            cases hv : scanJSON (scanFuel t2) .value (skipSpace t2) with
            | none => rfl
            | some p2 =>
              obtain ⟨v, rest3⟩ := p2
              have hl3 := (scanJSON_fuel _ _ _ _ _ hv).1
              have hl4 := skipSpace_length t2
              simp only []
              cases setField op key (readText (skipSpace t2) rest3) with
              | error e => rfl
              | ok op2 =>
                simp only []
                cases hsk3 : skipSpace rest3 with
                | nil => rfl
                | cons c3 t3 =>
                  have hl5 := skipSpace_cons_length _ _ _ hsk3
                  have hl6 := skipSpace_length t3
                  simp only []
                  split
                  · exact ih _ _ g1 g2 (by omega) (by omega) (by omega)
                  · rfl

/-! ## What the handlers and `Next` do apart from the defects -/

/-- On a result that is an integer `i` (an `int`, an `int64` or a non-nil
`*int`), `Range` returns `too small` when `i` is below a given `min`, else
`too large` when `i` is above a given `max`, and else whatever a second call of
`next` returns. -/
theorem Range_on_integer {σ : Type} (ctx : Context) (obj : Any) (next : Resolver σ)
    (min max : Option Int) (st : σ) (res : Any) (i : Int)
    (hres : res = .int i ∨ res = .int64 i ∨ res = .intPtr (some i))
    (hnext : (next ctx st).1 = (res, none)) :
    Range ctx obj next min max st =
      if ∃ mn, min = some mn ∧ i < mn then
        (.ret .nil (some (.text "too small")), (next ctx st).2)
      else if ∃ mx, max = some mx ∧ i > mx then
        (.ret .nil (some (.text "too large")), (next ctx st).2)
      else
        (.ret (next ctx (next ctx st).2).1.1 (next ctx (next ctx st).2).1.2,
         (next ctx (next ctx st).2).2) := by
  have e1 : Errorf0 "too small" = .text "too small" := by decide
  have e2 : Errorf0 "too large" = .text "too large" := by decide
  have hcheck : rangeCheck ctx next min max i (next ctx st).2 =
      if ∃ mn, min = some mn ∧ i < mn then
        (.ret .nil (some (.text "too small")), (next ctx st).2)
      else if ∃ mx, max = some mx ∧ i > mx then
        (.ret .nil (some (.text "too large")), (next ctx st).2)
      else
        (.ret (next ctx (next ctx st).2).1.1 (next ctx (next ctx st).2).1.2,
         (next ctx (next ctx st).2).2) := by
    unfold rangeCheck
    cases min with
    | none =>
      cases max with
      | none => simp
      | some mx => by_cases h2 : i > mx <;> simp [h2, e2]
    | some mn =>
      by_cases h1 : i < mn
      · simp [h1, e1]
      · cases max with
        | none => simp [h1]
        | some mx => by_cases h2 : i > mx <;> simp [h1, h2, e2]
  unfold Range
  rcases hn : next ctx st with ⟨⟨res1, err1⟩, st1⟩
  rw [hn] at hnext hcheck
  simp only [Prod.mk.injEq] at hnext
  obtain ⟨rfl, rfl⟩ := hnext
  rcases hres with rfl | rfl | rfl <;> exact hcheck

/-- On a message of type `error`, `Next` returns the payload run through
`fmt.Errorf` as a format and leaves `response` alone. -/
theorem Next_on_error_message {ρ : Type} (h : Helpers ρ) (response : ρ) (w w1 : Wire)
    (op : operationMessage) (hread : w.ReadJSON = (.ok op, w1)) (htyp : op.Typ = errorMsg) :
    subscriptionNext h response w = ((some (Errorf0 op.Payload), response), w1) := by
  have hne : ¬ errorMsg = dataMsg := by decide
  unfold subscriptionNext
  simp only [hread, htyp, hne, if_true, ne_eq, not_false_eq_true]

/-- When the payload of an `error` message has no percent sign, the text of the
error `Next` returns is the payload. -/
theorem Next_on_plain_error_message {ρ : Type} (h : Helpers ρ) (response : ρ) (w w1 : Wire)
    (op : operationMessage) (hread : w.ReadJSON = (.ok op, w1)) (htyp : op.Typ = errorMsg)
    (hplain : '%' ∉ op.Payload.data) :
    subscriptionNext h response w = ((some (.text op.Payload), response), w1) := by
  rw [Next_on_error_message h response w w1 op hread htyp, Errorf0,
    Sprintf0_of_no_percent _ hplain]

/-- The `unpack` into `struct { A, B int }` on a few maps: a negative number is
stored, a fraction is dropped, a key no field takes is reported after the
fields are set, a key that differs from the field name in case only is taken,
and a nil entry leaves its field alone. -/
theorem unpackTwoInts_examples :
    unpackTwoInts (.obj [("A", .number (-1) 0)]) ⟨7, 8⟩ = (none, ⟨-1, 8⟩) ∧
    unpackTwoInts (.obj [("A", .number 3 (-1))]) ⟨7, 8⟩ = (none, ⟨1, 8⟩) ∧
    unpackTwoInts (.obj [("A", .number (-3) (-1))]) ⟨7, 8⟩ = (none, ⟨-1, 8⟩) ∧
    unpackTwoInts (.obj [("z", .null), ("A", .number 1 0), ("C", .number 2 0)]) ⟨7, 8⟩
      = (some (.unpackFailed [.invalidKeys ["C", "z"]]), ⟨1, 8⟩) ∧
    unpackTwoInts (.obj [("a", .number 1 0), ("b", .null)]) ⟨7, 8⟩ = (none, ⟨1, 8⟩) ∧
    unpackTwoInts (.obj [("A", .bool true), ("B", .number 1 63)]) ⟨7, 8⟩
      = (some (.unpackFailed [.unconvertible "A"]), ⟨7, -9223372036854775808⟩) ∧
    unpackTwoInts .null ⟨7, 8⟩ = (none, ⟨7, 8⟩) ∧
    unpackTwoInts (.arr []) ⟨7, 8⟩ = (some (.unpackFailed [.notAMap]), ⟨7, 8⟩) := by
  decide

end Gqlgen
